import Mathlib

/-
Verification of the ERC (Electrical Rule Check) engine: a shallow embedding
of the rule-validation engine over schematic diagrams (nodes, edges, ports,
pins) together with proofs about its rules and its test-instruction
generator.

JavaScript scalar values that can occur in the relevant fields of the parsed
diagram JSON are modelled by `JVal` (a string, an integer number, or an
absent/undefined value); JS truthiness, template-literal stringification and
`Array.prototype.join` element stringification are modelled explicitly.
Method calls that throw a TypeError on non-string receivers (`.trim()`,
`.toUpperCase()`) are modelled in the `Except Unit` monad.
-/

namespace ERC

/-- A JavaScript scalar value as it occurs in diagram fields: a string, an
integer number, or absent (undefined / missing field). -/
inductive JVal where
  | str (s : String)
  | num (n : Int)
  | absent
deriving DecidableEq, Repr

/-- JS truthiness of a `JVal`: strings are truthy iff nonempty, numbers iff
nonzero, absent is falsy. -/
def truthy : JVal → Bool
  | .str s => !s.isEmpty
  | .num n => decide (n ≠ 0)
  | .absent => false

/-- Template-literal stringification (`String(v)`): absent prints as
"undefined". -/
def jstr : JVal → String
  | .str s => s
  | .num n => toString n
  | .absent => "undefined"

/-- Element stringification used by `Array.prototype.join`: absent values
become the empty string. -/
def jvalJoin : JVal → String
  | .str s => s
  | .num n => toString n
  | .absent => ""

/-- Substring test modelling `String.prototype.includes`. -/
def hasSubstr (s pat : String) : Bool :=
  s.toList.tails.any (fun t => pat.toList.isPrefixOf t)

/-- `s.toUpperCase()` on a string, character by character. -/
def jsUpper (s : String) : String :=
  ⟨s.data.map Char.toUpper⟩

/-- `s.trim()` on a string: strip leading and trailing whitespace. -/
def jsTrim (s : String) : String :=
  ⟨(((s.data.dropWhile Char.isWhitespace).reverse).dropWhile Char.isWhitespace).reverse⟩

/-- `v.toUpperCase()`: succeeds only on strings; on a number or an absent
value the JS call throws a TypeError, modelled as `.error ()`. -/
def upperVal : JVal → Except Unit String
  | .str s => .ok (jsUpper s)
  | .num _ => .error ()
  | .absent => .error ()

/-- `v.trim()`: succeeds only on strings. -/
def trimVal : JVal → Except Unit String
  | .str s => .ok (jsTrim s)
  | .num _ => .error ()
  | .absent => .error ()

/-- `p.value?.toUpperCase().includes(pat)` coerced to boolean: the optional
chain yields `false` for an absent value, throws on a number. -/
def valHasSub (v : JVal) (pat : String) : Except Unit Bool :=
  match v with
  | .str s => .ok (hasSubstr (jsUpper s) pat)
  | .num _ => .error ()
  | .absent => .ok false

/-- One `display_properties` entry (a key/value pair). -/
structure DProp where
  key : JVal
  value : JVal
deriving DecidableEq, Repr

/-- A pin declared inside a port: an id and an electrical function label. -/
structure Pin where
  id : JVal
  function : JVal
deriving DecidableEq, Repr

/-- A port of a node, holding a (possibly missing) list of pins. -/
structure Port where
  pins : Option (List Pin)
deriving DecidableEq, Repr

/-- The `data` object of a node. -/
structure NodeData where
  display_properties : Option (List DProp)
  ports : Option (List Port)
deriving DecidableEq, Repr

/-- A diagram node (a device). -/
structure Node where
  id : JVal
  type : JVal
  data : Option NodeData
deriving DecidableEq, Repr

/-- The `data` object of an edge. -/
structure EdgeData where
  display_properties : Option (List DProp)
  parent_id : JVal
deriving DecidableEq, Repr

/-- A diagram edge (a wire). -/
structure Edge where
  id : JVal
  type : JVal
  source : JVal
  target : JVal
  sourceHandle : JVal
  targetHandle : JVal
  data : Option EdgeData
deriving DecidableEq, Repr

/-- A parsed diagram: possibly missing collections of nodes and edges. -/
structure Diagram where
  nodes : Option (List Node)
  edges : Option (List Edge)
deriving DecidableEq, Repr

/-- Severity of a finding. -/
inductive Sev where
  | error
  | warning
  | info
deriving DecidableEq, Repr

/-- One structured ERC finding. -/
structure ERCResult where
  id : Option JVal
  type : Sev
  message : String
deriving DecidableEq, Repr

/-- Category of a suggested test instruction. -/
inductive Cat where
  | continuity
  | power
  | signal
  | mechanical
deriving DecidableEq, Repr

/-- One suggested hardware test instruction. -/
structure TestInstruction where
  id : JVal
  category : Cat
  instruction : String
deriving DecidableEq, Repr

/-- `diagram.nodes || []`. -/
def nodesOf (d : Diagram) : List Node := d.nodes.getD []

/-- `diagram.edges || []`. -/
def edgesOf (d : Diagram) : List Edge := d.edges.getD []

/-- `props?.find(p => p.key === k)?.value` : the value of the first property
with the given key, or absent. -/
def propVal (ps : Option (List DProp)) (k : String) : JVal :=
  match ps with
  | none => .absent
  | some l =>
    match l.find? (fun p => p.key == .str k) with
    | some p => p.value
    | none => .absent

/-- `node.data?.display_properties`. -/
def nodeProps (n : Node) : Option (List DProp) :=
  n.data.bind (fun dt => dt.display_properties)

/-- `node.data?.display_properties?.find(p => p.key === k)?.value`. -/
def nodePropVal (n : Node) (k : String) : JVal :=
  propVal (nodeProps n) k

/-- `edge.data?.display_properties`. -/
def edgeProps (e : Edge) : Option (List DProp) :=
  e.data.bind (fun dt => dt.display_properties)

/-- `edge.data?.display_properties?.find(p => p.key === k)?.value`. -/
def edgePropVal (e : Edge) (k : String) : JVal :=
  propVal (edgeProps e) k

/-- `edge.data?.parent_id`. -/
def parentIdOf (e : Edge) : JVal :=
  match e.data with
  | some dt => dt.parent_id
  | none => .absent

/-- `getNodeName`: resolve a node id to its display reference name, falling
back to the raw id. -/
def getNodeName (d : Diagram) (nodeId : JVal) : JVal :=
  match (nodesOf d).find? (fun n => n.id == nodeId) with
  | none => nodeId
  | some n =>
    let rn := nodePropVal n "reference_name"
    if truthy rn then rn else nodeId

/-- `getEdgeName`: resolve an edge id to its display reference name, falling
back to the raw id. -/
def getEdgeName (d : Diagram) (edgeId : JVal) : JVal :=
  match (edgesOf d).find? (fun e => e.id == edgeId) with
  | none => edgeId
  | some e =>
    let rn := edgePropVal e "reference_name"
    if truthy rn then rn else edgeId

/-- The set of ids of nodes of type `ghostNode`. -/
def ghostIds (d : Diagram) : List JVal :=
  (nodesOf d).filterMap (fun n => if n.type == .str "ghostNode" then some n.id else none)

/-! ## Insertion-ordered multimap, modelling `Map<K, V[]>` built with
`if (!map.has(k)) map.set(k, []); map.get(k)!.push(v)` and iterated with
`map.entries()` (JS `Map` iterates keys in insertion order). -/

/-- An insertion-ordered association list from keys to lists of values. -/
abbrev KVMap := List (JVal × List JVal)

/-- First-match lookup (`map.get(k)`). -/
def getVal : KVMap → JVal → Option (List JVal)
  | [], _ => none
  | (k, vs) :: rest, q => if q = k then some vs else getVal rest q

/-- Append `v` to the entry for `k`, creating the entry at the end when the
key is new (the JS `has`/`set`/`push` idiom). -/
def pushEntry : KVMap → JVal → JVal → KVMap
  | [], k, v => [(k, [v])]
  | (k', vs) :: rest, k, v =>
    if k = k' then (k', vs ++ [v]) :: rest else (k', vs) :: pushEntry rest k v

/-- Push a value under a key, skipping falsy keys (`if (!k) continue` /
`if (refName) { ... }`). -/
def pushIf (m : KVMap) (k v : JVal) : KVMap :=
  if truthy k then pushEntry m k v else m

/-- Push a sequence of key/value pairs in order. -/
def pushAll (m : KVMap) : List (JVal × JVal) → KVMap
  | [] => m
  | kv :: kvs => pushAll (pushIf m kv.1 kv.2) kvs

/-- Fold the per-item contributions of a list into a `KVMap`, starting from
an accumulator. -/
def groupByAux (f : α → List (JVal × JVal)) (m : KVMap) : List α → KVMap
  | [] => m
  | x :: xs => groupByAux f (pushAll m (f x)) xs

/-- Build the `KVMap` of a list of items from their key/value contributions. -/
def groupKV (f : α → List (JVal × JVal)) (xs : List α) : KVMap :=
  groupByAux f [] xs

/-- The keys of a `KVMap`, in order. -/
def mapKeys (m : KVMap) : List JVal := m.map (fun ent => ent.1)

/-- All value lists stored under a given key (a `KVMap` built by the engine
has at most one). -/
def entriesFor (m : KVMap) (q : JVal) : List (List JVal) :=
  m.filterMap (fun ent => if ent.1 = q then some ent.2 else none)

/-- The values contributed under key `q` by a list of key/value pairs. -/
def pickVals (kvs : List (JVal × JVal)) (q : JVal) : List JVal :=
  kvs.filterMap (fun kv => if kv.1 = q then some kv.2 else none)

/-- The values contributed under key `q` across a whole item list. -/
def keyVals (f : α → List (JVal × JVal)) (xs : List α) (q : JVal) : List JVal :=
  (xs.flatMap f).filterMap (fun kv => if kv.1 = q then some kv.2 else none)

/-- Merge an existing optional entry with newly contributed values. -/
def combine (o : Option (List JVal)) (l : List JVal) : Option (List JVal) :=
  match o with
  | none => if l.isEmpty then none else some l
  | some vs => some (vs ++ l)

/-! ## The rule catalog -/

/-- Loop body of `checkFloatingWires`: skip bundled edges; flag an edge whose
source or target is falsy or is the id of a ghost node. -/
def floatBody (ghosts : List JVal) (e : Edge) : List ERCResult :=
  if e.type == .str "bundledEdge" then []
  else if !truthy e.source || !truthy e.target
      || ghosts.contains e.source || ghosts.contains e.target then
    let rn := edgePropVal e "reference_name"
    let wireName := if truthy rn then rn else e.id
    [⟨some e.id, .error,
      "Wire \"" ++ jstr wireName ++ "\" is floating — one end is not connected."⟩]
  else []

/-- `checkFloatingWires`. -/
def checkFloatingWires (d : Diagram) : List ERCResult :=
  (edgesOf d).flatMap (floatBody (ghostIds d))

/-- `checkOrphanComponents`: a non-bundle, non-ghost node appearing as neither
source nor target of any non-bundled edge is an orphan. -/
def checkOrphanComponents (d : Diagram) : List ERCResult :=
  (nodesOf d).flatMap (fun n =>
    if n.type == .str "bundleNode" || n.type == .str "ghostNode" then []
    else if (edgesOf d).any (fun e =>
        !(e.type == .str "bundledEdge") && (n.id == e.source || n.id == e.target)) then []
    else
      [⟨some n.id, .error,
        "Component " ++ jstr (getNodeName d n.id) ++ " is an orphan component."⟩])

/-- Key/value contribution of one node to the duplicate-name map: its
resolved reference-name value paired with its id (skipping bundle and ghost
nodes; falsy names are dropped by `pushIf`). -/
def dupContrib (n : Node) : List (JVal × JVal) :=
  if n.type == .str "bundleNode" || n.type == .str "ghostNode" then []
  else [(nodePropVal n "reference_name", n.id)]

/-- The name → node-ids map of `checkDuplicates`. -/
def nameMap (d : Diagram) : KVMap :=
  groupKV dupContrib (nodesOf d)

/-- The finding emitted for one entry of the name map, when it holds more
than one node id. -/
def mkDupFinding (ent : JVal × List JVal) : Option ERCResult :=
  if ent.2.length > 1 then
    some ⟨some (.str (String.intercalate ", " (ent.2.map jvalJoin))), .error,
      "Duplicate reference name detected: \"" ++ jstr ent.1 ++ "\" appears "
        ++ toString ent.2.length ++ " times."⟩
  else none

/-- `checkDuplicates`. -/
def checkDuplicates (d : Diagram) : List ERCResult :=
  (nameMap d).filterMap mkDupFinding

/-- Key/value contribution of one edge to the pin-connection map: both
handles paired with the edge id, skipping bundled edges and edges touching a
ghost node (falsy handles are dropped by `pushIf`). -/
def mwContrib (ghosts : List JVal) (e : Edge) : List (JVal × JVal) :=
  if e.type == .str "bundledEdge" then []
  else if ghosts.contains e.source || ghosts.contains e.target then []
  else [(e.sourceHandle, e.id), (e.targetHandle, e.id)]

/-- The pin → edge-ids map of `checkMultipleWires`. -/
def pinConnMap (d : Diagram) : KVMap :=
  groupKV (mwContrib (ghostIds d)) (edgesOf d)

/-- The finding emitted for one entry of the pin-connection map, when the pin
has more than one connected edge end. -/
def mkMWFinding (d : Diagram) (ent : JVal × List JVal) : Option ERCResult :=
  if ent.2.length > 1 then
    some ⟨some (.str (String.intercalate ", " (ent.2.map jvalJoin))), .error,
      "Pin " ++ jstr ent.1 ++ " has multiple wires connected: "
        ++ String.intercalate ", " (ent.2.map (fun i => jvalJoin (getEdgeName d i)))⟩
  else none

/-- `checkMultipleWires`. -/
def checkMultipleWires (d : Diagram) : List ERCResult :=
  (pinConnMap d).filterMap (mkMWFinding d)

/-! ## Pin-Function Index -/

/-- The pin-id → upper-cased role index (a JS `Map<string,string>` with
last-write-wins `set`). -/
abbrev PinMap := List (JVal × String)

/-- `map.set(k, v)`: update in place, or append a new entry. -/
def setEntry : PinMap → JVal → String → PinMap
  | [], k, v => [(k, v)]
  | (k', v') :: rest, k, v =>
    if k = k' then (k', v) :: rest else (k', v') :: setEntry rest k v

/-- `map.get(k)`. -/
def getPin (m : PinMap) (k : JVal) : Option String :=
  (m.find? (fun kv => kv.1 == k)).map (fun kv => kv.2)

/-- Record one pin: `if (pin.id && pin.function) map.set(pin.id,
pin.function.toUpperCase())` — the `toUpperCase` call throws on a truthy
non-string function. -/
def addPin (m : PinMap) (p : Pin) : Except Unit PinMap :=
  if truthy p.id && truthy p.function then do
    let u ← upperVal p.function
    pure (setEntry m p.id u)
  else pure m

/-- Record all pins of one pin list. -/
def addPins (m : PinMap) : List Pin → Except Unit PinMap
  | [] => .ok m
  | p :: ps => do
    let m2 ← addPin m p
    addPins m2 ps

/-- Record all pins of one port list. -/
def addPorts (m : PinMap) : List Port → Except Unit PinMap
  | [] => .ok m
  | pt :: pts => do
    let m2 ← addPins m (pt.pins.getD [])
    addPorts m2 pts

/-- Record all pins of one node list. -/
def addNodes (m : PinMap) : List Node → Except Unit PinMap
  | [] => .ok m
  | n :: ns => do
    let m2 ← addPorts m ((n.data.bind (fun dt => dt.ports)).getD [])
    addNodes m2 ns

/-- The Pin-Function Index: traverse all nodes, ports, and pins. -/
def buildPinMap (d : Diagram) : Except Unit PinMap :=
  addNodes [] (nodesOf d)

/-- The illegal role combinations enumerated by `checkPowerConnections`. -/
def illegalCombos : List (String × String) :=
  [("PWR", "GND"), ("GND", "PWR"),
   ("PWR", "TX+"), ("PWR", "TX-"), ("PWR", "RX+"), ("PWR", "RX-"),
   ("TX+", "PWR"), ("TX-", "PWR"), ("RX+", "PWR"), ("RX-", "PWR"),
   ("GND", "TX+"), ("GND", "TX-"), ("GND", "RX+"), ("GND", "RX-"),
   ("TX+", "GND"), ("TX-", "GND"), ("RX+", "GND"), ("RX-", "GND")]

/-- Loop body of `checkPowerConnections` for one edge. -/
def powerEdgeCheck (d : Diagram) (pm : PinMap) (e : Edge) : List ERCResult :=
  if e.type == .str "bundledEdge" then []
  else
    match getPin pm e.sourceHandle, getPin pm e.targetHandle with
    | some sf, some tf =>
      illegalCombos.flatMap (fun ab =>
        if sf == ab.1 && tf == ab.2 then
          [⟨some e.id, .error,
            "Invalid power connection on wire \"" ++ jstr (getEdgeName d e.id)
              ++ "\": " ++ sf ++ " → " ++ tf⟩]
        else [])
    | _, _ => []

/-- `checkPowerConnections`. -/
def checkPowerConnections (d : Diagram) : Except Unit (List ERCResult) := do
  let pm ← buildPinMap d
  pure ((edgesOf d).flatMap (powerEdgeCheck d pm))

/-- The serial role set of `checkSerialConnections`. -/
def serialPins : List String := ["TX+", "TX-", "RX+", "RX-"]

/-- The valid complementary serial pairs. -/
def validCombos : List (String × String) :=
  [("TX+", "RX+"), ("TX-", "RX-"), ("RX+", "TX+"), ("RX-", "TX-")]

/-- Loop body of `checkSerialConnections` for one edge (note: bundled edges
are not skipped by this rule). -/
def serialEdgeCheck (d : Diagram) (pm : PinMap) (e : Edge) : List ERCResult :=
  match getPin pm e.sourceHandle, getPin pm e.targetHandle with
  | some sf, some tf =>
    if !(serialPins.contains sf) || !(serialPins.contains tf) then []
    else if validCombos.any (fun ab => sf == ab.1 && tf == ab.2) then []
    else
      [⟨some e.id, .error,
        "Invalid serial connection on wire \"" ++ jstr (getEdgeName d e.id)
          ++ "\": " ++ sf ++ " → " ++ tf⟩]
  | _, _ => []

/-- `checkSerialConnections`. -/
def checkSerialConnections (d : Diagram) : Except Unit (List ERCResult) := do
  let pm ← buildPinMap d
  pure ((edgesOf d).flatMap (serialEdgeCheck d pm))

/-- Left-to-right effectful flat-map, modelling a JS `for` loop that pushes
the results of each iteration and lets a thrown error propagate. -/
def exFlatMap (f : α → Except Unit (List β)) : List α → Except Unit (List β)
  | [] => .ok []
  | x :: xs => do
    let l ← f x
    let r ← exFlatMap f xs
    pure (l ++ r)

/-- Loop body of `checkMissingPartNames` for one node: `!partName` short
circuits, so `.trim()` is called (and can throw) only on truthy values. -/
def partNameBody (n : Node) : Except Unit (List ERCResult) :=
  if n.type == .str "bundleNode" || n.type == .str "ghostNode" then .ok []
  else
    let pn := nodePropVal n "part_name"
    if !truthy pn then
      .ok [⟨some n.id, .warning, "Component " ++ jstr n.id ++ " is missing a part name."⟩]
    else do
      let t ← trimVal pn
      if t == "" then
        pure [⟨some n.id, .warning, "Component " ++ jstr n.id ++ " is missing a part name."⟩]
      else pure []

/-- `checkMissingPartNames`. -/
def checkMissingPartNames (d : Diagram) : Except Unit (List ERCResult) :=
  exFlatMap partNameBody (nodesOf d)

/-- Loop body of `checkMissingLengths` for one edge. -/
def lengthBody (d : Diagram) (e : Edge) : Except Unit (List ERCResult) :=
  if e.type == .str "bundledEdge" then .ok []
  else
    let lp := edgePropVal e "length"
    if !truthy lp then
      .ok [⟨some e.id, .warning,
        "Wire \"" ++ jstr (getEdgeName d e.id) ++ "\" has no length assigned."⟩]
    else do
      let t ← trimVal lp
      if t == "" then
        pure [⟨some e.id, .warning,
          "Wire \"" ++ jstr (getEdgeName d e.id) ++ "\" has no length assigned."⟩]
      else pure []

/-- `checkMissingLengths`. -/
def checkMissingLengths (d : Diagram) : Except Unit (List ERCResult) :=
  exFlatMap (lengthBody d) (edgesOf d)

/-- Message of a floating bundled wire. -/
def bundledMsg (cableName ins : JVal) : String :=
  "Wire in cable \"" ++ jstr cableName ++ "\" ("
    ++ (if truthy ins then jstr ins else "unknown color")
    ++ ") is floating — one end is not connected."

/-- Loop body of `checkFloatingBundledWires` for one edge: only bundled edges
are examined; the message names the parent cable resolved via
`data.parent_id` (or "Unknown cable"). -/
def bundledFloatBody (d : Diagram) (ghosts : List JVal) (e : Edge) : List ERCResult :=
  if !(e.type == .str "bundledEdge") then []
  else if !truthy e.source || !truthy e.target
      || ghosts.contains e.source || ghosts.contains e.target then
    let ins := edgePropVal e "insulation"
    let parent := (edgesOf d).find? (fun pe => pe.id == parentIdOf e)
    let pn :=
      match parent with
      | some pe => edgePropVal pe "reference_name"
      | none => .absent
    let cableName := if truthy pn then pn else .str "Unknown cable"
    [⟨some e.id, .error, bundledMsg cableName ins⟩]
  else []

/-- `checkFloatingBundledWires`. -/
def checkFloatingBundledWires (d : Diagram) : List ERCResult :=
  (edgesOf d).flatMap (bundledFloatBody d (ghostIds d))

/-! ## Test-Instruction Generator -/

/-- `insulation ? insulation.toUpperCase() : "unknown color"`. -/
def colorOf (e : Edge) : Except Unit String :=
  let ins := edgePropVal e "insulation"
  if truthy ins then upperVal ins else .ok "unknown color"

/-- `props.some(p => p.value?.toUpperCase().includes(pat))`, left to right
with short-circuit on the first `true`. -/
def someContains (ps : List DProp) (pat : String) : Except Unit Bool :=
  match ps with
  | [] => .ok false
  | p :: rest => do
    let b ← valHasSub p.value pat
    if b then pure true else someContains rest pat

/-- `${refName || edge.id}` as a string. -/
def wireLabel (e : Edge) : String :=
  jstr (if truthy (edgePropVal e "reference_name") then edgePropVal e "reference_name" else e.id)

/-- The unconditional continuity instruction of one edge. -/
def contIns (e : Edge) (color : String) : TestInstruction :=
  ⟨e.id, .continuity,
    "Perform a continuity check along wire " ++ wireLabel e ++ " (" ++ color
      ++ "). Ensure resistance < 1 Ω."⟩

/-- The mechanical length-verification instruction of one edge. -/
def mechIns (e : Edge) : TestInstruction :=
  ⟨e.id, .mechanical,
    "Measure and confirm wire " ++ wireLabel e ++ " length = "
      ++ jstr (edgePropVal e "length") ++ " in."⟩

/-- The power-verification instruction of one edge. -/
def powIns (e : Edge) : TestInstruction :=
  ⟨e.id, .power,
    "Using a multimeter, verify " ++ wireLabel e
      ++ " delivers correct voltage between PWR and GND."⟩

/-- The signal-verification instruction of one edge. -/
def sigIns (e : Edge) (hasTX : Bool) : TestInstruction :=
  ⟨e.id, .signal,
    "Use an oscilloscope to validate " ++ wireLabel e ++ " signal integrity ("
      ++ (if hasTX then "TX" else "RX") ++ " line)."⟩

/-- `edge.data?.display_properties || []` (the `props` constant of the
generator loop). -/
def genProps (e : Edge) : List DProp :=
  (edgeProps e).getD []

/-- Loop body of `generateTestInstructions` for one edge. -/
def genBody (e : Edge) : Except Unit (List TestInstruction) :=
  if e.type == .str "bundledEdge" then .ok []
  else do
    let color ← colorOf e
    let hPWR ← someContains (genProps e) "PWR"
    let hGND ← someContains (genProps e) "GND"
    let hTX ← someContains (genProps e) "TX"
    let hRX ← someContains (genProps e) "RX"
    pure ([contIns e color]
      ++ (if truthy (edgePropVal e "length") then [mechIns e] else [])
      ++ (if hPWR && hGND then [powIns e] else [])
      ++ (if hTX || hRX then [sigIns e hTX] else []))

/-- `generateTestInstructions`. -/
def generateTestInstructions (d : Diagram) : Except Unit (List TestInstruction) :=
  exFlatMap genBody (edgesOf d)

/-! ## Aggregator -/

/-- `runERC`: run the nine rules in the order of the source array literal,
then the test-instruction generator; a thrown error propagates. -/
def runERC (d : Diagram) : Except Unit (List ERCResult × List TestInstruction) := do
  let r1 := checkFloatingWires d
  let r2 := checkOrphanComponents d
  let r3 := checkDuplicates d
  let r4 := checkMultipleWires d
  let r5 ← checkPowerConnections d
  let r6 ← checkSerialConnections d
  let r7 ← checkMissingPartNames d
  let r8 ← checkMissingLengths d
  let r9 := checkFloatingBundledWires d
  let tests ← generateTestInstructions d
  pure (r1 ++ r2 ++ r3 ++ r4 ++ r5 ++ r6 ++ r7 ++ r8 ++ r9, tests)

/-! ## Characterizations and specification-side definitions -/

instance {ε α : Type} [DecidableEq ε] [DecidableEq α] : DecidableEq (Except ε α) :=
  fun a b =>
    match a, b with
    | .ok x, .ok y =>
      if h : x = y then isTrue (by rw [h]) else isFalse (fun hc => h (Except.ok.inj hc))
    | .error x, .error y =>
      if h : x = y then isTrue (by rw [h]) else isFalse (fun hc => h (Except.error.inj hc))
    | .ok _, .error _ => isFalse (fun hc => Except.noConfusion hc)
    | .error _, .ok _ => isFalse (fun hc => Except.noConfusion hc)

/-- Whether a computation returned normally. -/
def okE : Except Unit α → Bool
  | .ok _ => true
  | .error _ => false

/-- `v` is the id of a `ghostNode` of the diagram. -/
def isGhostId (d : Diagram) (v : JVal) : Prop :=
  ∃ n ∈ nodesOf d, n.type = JVal.str "ghostNode" ∧ n.id = v

/-- The ids, in node order, of the non-bundle non-ghost nodes whose
reference-name value is `rn`. -/
def dupMembers (d : Diagram) (rn : JVal) : List JVal :=
  (nodesOf d).filterMap (fun n =>
    if n.type == .str "bundleNode" || n.type == .str "ghostNode" then none
    else if nodePropVal n "reference_name" = rn then some n.id else none)

/-- The edge ids, in edge order and with an id repeated once per matching
edge end, of the edge ends carrying the pin id `p`, restricted to
non-bundled edges that touch no ghost node. -/
def pinOcc (d : Diagram) (p : JVal) : List JVal :=
  (edgesOf d).flatMap (fun e =>
    if e.type == .str "bundledEdge" then []
    else if (ghostIds d).contains e.source || (ghostIds d).contains e.target then []
    else (if e.sourceHandle = p then [e.id] else [])
      ++ (if e.targetHandle = p then [e.id] else []))

/-- The unordered role pairs that the power rule actually flags: PWR paired
with GND or with a serial role, or GND paired with a serial role, in either
direction. -/
def pwrIllegalPair (sf tf : String) : Prop :=
  (sf = "PWR" ∧ tf ∈ ["GND", "TX+", "TX-", "RX+", "RX-"]) ∨
  (tf = "PWR" ∧ sf ∈ ["GND", "TX+", "TX-", "RX+", "RX-"]) ∨
  (sf = "GND" ∧ tf ∈ ["TX+", "TX-", "RX+", "RX-"]) ∨
  (tf = "GND" ∧ sf ∈ ["TX+", "TX-", "RX+", "RX-"])

/-- Modelled from the spec: the illegal power combinations as the
specification lists them — PWR paired with GND or with a serial role only
(the GND-with-serial pairs of the source are not listed). -/
def claimedPowerPairs : List (String × String) :=
  [("PWR", "GND"), ("GND", "PWR"),
   ("PWR", "TX+"), ("PWR", "TX-"), ("PWR", "RX+"), ("PWR", "RX-"),
   ("TX+", "PWR"), ("TX-", "PWR"), ("RX+", "PWR"), ("RX-", "PWR")]

/-- Modelled from the spec: the aggregated findings in the rule-catalog
order the specification states (floating wire, floating bundled wire,
orphan, duplicate, multiple wires, power, serial, part names, lengths). -/
def claimedOrderResults (d : Diagram) : Except Unit (List ERCResult) := do
  let r5 ← checkPowerConnections d
  let r6 ← checkSerialConnections d
  let r7 ← checkMissingPartNames d
  let r8 ← checkMissingLengths d
  pure (checkFloatingWires d ++ checkFloatingBundledWires d
    ++ checkOrphanComponents d ++ checkDuplicates d ++ checkMultipleWires d
    ++ r5 ++ r6 ++ r7 ++ r8)

/-- Some display-property value of the list is a string containing `pat`
case-insensitively. -/
def hasPropSub (ps : List DProp) (pat : String) : Prop :=
  ∃ p ∈ ps, ∃ s, p.value = JVal.str s ∧ hasSubstr (jsUpper s) pat = true

/-- A scalar that the engine can call string methods on without throwing:
anything but a number. -/
def strOrAbsent : JVal → Bool
  | .num _ => false
  | _ => true

/-- Every value of a (possibly missing) property list is a string or absent. -/
def propsSafe (ps : Option (List DProp)) : Bool :=
  (ps.getD []).all (fun p => strOrAbsent p.value)

/-- All display-property values and pin functions of a node are strings or
absent. -/
def nodeSafe (n : Node) : Bool :=
  propsSafe (nodeProps n)
    && ((n.data.bind (fun dt => dt.ports)).getD []).all (fun pt =>
      (pt.pins.getD []).all (fun p => strOrAbsent p.function))

/-- All display-property values and pin functions of the diagram are strings
or absent. -/
def strSafe (d : Diagram) : Bool :=
  (nodesOf d).all nodeSafe && (edgesOf d).all (fun e => propsSafe (edgeProps e))

/-! ## Concrete inputs for counterexamples and witnesses -/

/-- A node with one pin of role GND. -/
def nodeGND : Node :=
  ⟨.str "N1", .absent, some ⟨none, some [⟨some [⟨.str "P1", .str "GND"⟩]⟩]⟩⟩

/-- A node with one pin of role TX+. -/
def nodeTXP : Node :=
  ⟨.str "N2", .absent, some ⟨none, some [⟨some [⟨.str "P2", .str "TX+"⟩]⟩]⟩⟩

/-- An edge wiring pin P1 to pin P2. -/
def edgeP1P2 : Edge :=
  ⟨.str "E1", .absent, .str "N1", .str "N2", .str "P1", .str "P2", none⟩

/-- A diagram connecting a GND pin to a TX+ pin. -/
def dPowCex : Diagram := ⟨some [nodeGND, nodeTXP], some [edgeP1P2]⟩

/-- An ordinary component node carrying only a part name. -/
def nodeOrd : Node := ⟨.str "N1", .absent, some ⟨some [⟨.str "part_name", .str "X"⟩], none⟩⟩

/-- A fully unconnected bundled edge. -/
def edgeBund : Edge := ⟨.str "B1", .str "bundledEdge", .absent, .absent, .absent, .absent, none⟩

/-- A diagram with one orphan component and one floating bundled wire. -/
def dOrdCex : Diagram := ⟨some [nodeOrd], some [edgeBund]⟩

/-- A diagram whose only node has a numeric `part_name` value. -/
def dThrowCex : Diagram :=
  ⟨some [⟨.str "N1", .absent, some ⟨some [⟨.str "part_name", .num 5⟩], none⟩⟩], none⟩

/-- An edge whose source is the empty string (present but falsy). -/
def eFloatCex : Edge := ⟨.str "E1", .absent, .str "", .str "T", .absent, .absent, none⟩

/-- A diagram with one edge whose source is present but empty. -/
def dFloatCex : Diagram := ⟨none, some [eFloatCex]⟩

/-- An edge carrying a `length` property whose value is the empty string. -/
def eGenCex : Edge :=
  ⟨.str "E1", .absent, .absent, .absent, .absent, .absent,
    some ⟨some [⟨.str "length", .str ""⟩], .absent⟩⟩

/-- A diagram with one edge whose `length` property is present but empty. -/
def dGenCex : Diagram := ⟨none, some [eGenCex]⟩

/-- The empty diagram. -/
def dEmpty : Diagram := ⟨none, none⟩

/-- A node carrying reference name R under a given id. -/
def refNode (i : String) : Node :=
  ⟨.str i, .absent, some ⟨some [⟨.str "reference_name", .str "R"⟩], none⟩⟩

/-- A diagram with two distinct nodes sharing the reference name R. -/
def dDupW : Diagram := ⟨some [refNode "A", refNode "B"], none⟩

/-- An edge with a given id whose source handle is pin P. -/
def pinEdge (i : String) : Edge :=
  ⟨.str i, .absent, .str "A", .str "B", .str "P", .absent, none⟩

/-- A diagram with two edges whose source handles are both pin P. -/
def dMWW : Diagram := ⟨some [], some [pinEdge "E1", pinEdge "E2"]⟩

/-- A node with one pin of role PWR. -/
def nodePWR : Node :=
  ⟨.str "N1", .absent, some ⟨none, some [⟨some [⟨.str "P1", .str "PWR"⟩]⟩]⟩⟩

/-- A node whose single pin P2 has role GND. -/
def nodeGNDP2 : Node :=
  ⟨.str "N2", .absent, some ⟨none, some [⟨some [⟨.str "P2", .str "GND"⟩]⟩]⟩⟩

/-- A diagram connecting a PWR pin to a GND pin. -/
def dPowW : Diagram := ⟨some [nodePWR, nodeGNDP2], some [edgeP1P2]⟩

/-- A node with one pin of role TX+ under a given id and pin id. -/
def txNode (i pid : String) : Node :=
  ⟨.str i, .absent, some ⟨none, some [⟨some [⟨.str pid, .str "TX+"⟩]⟩]⟩⟩

/-- A diagram connecting two TX+ pins (an invalid serial pair). -/
def dSerW : Diagram := ⟨some [txNode "N1" "P1", txNode "N2" "P2"], some [edgeP1P2]⟩

/-- A cable edge named CAB with id C1. -/
def cableEdge : Edge :=
  ⟨.str "C1", .absent, .str "A", .str "B", .absent, .absent,
    some ⟨some [⟨.str "reference_name", .str "CAB"⟩], .absent⟩⟩

/-- A floating sub-wire of cable C1. -/
def subWire : Edge :=
  ⟨.str "W1", .str "bundledEdge", .absent, .absent, .absent, .absent,
    some ⟨none, .str "C1"⟩⟩

/-- A diagram with a cable and a floating sub-wire of it. -/
def dBundW : Diagram := ⟨none, some [cableEdge, subWire]⟩

/-- An edge with name, insulation, length and a PWR/GND/TX-bearing property. -/
def eGenW : Edge :=
  ⟨.str "E1", .absent, .absent, .absent, .absent, .absent,
    some ⟨some [⟨.str "reference_name", .str "W1"⟩, ⟨.str "insulation", .str "red"⟩,
      ⟨.str "length", .str "12"⟩, ⟨.str "sig", .str "PWR and GND and TX"⟩], .absent⟩⟩

/-- A diagram with the fully annotated edge `eGenW`. -/
def dGenW : Diagram := ⟨none, some [eGenW]⟩

/-! ## Lemmas about the insertion-ordered multimap -/

theorem combine_nil (o : Option (List JVal)) : combine o [] = o := by
  cases o <;> simp [combine]

theorem combine_push (o : Option (List JVal)) (v : JVal) (rest : List JVal) :
    combine (some (o.getD [] ++ [v])) rest = combine o (v :: rest) := by
  cases o <;> simp [combine]

theorem combine_append (o : Option (List JVal)) (l1 l2 : List JVal) :
    combine (combine o l1) l2 = combine o (l1 ++ l2) := by
  cases o with
  | some vs => simp [combine]
  | none =>
    cases l1 with
    | nil => simp [combine]
    | cons a t => simp [combine]

theorem getVal_pushEntry_self (m : KVMap) (k : JVal) (v : JVal) :
    getVal (pushEntry m k v) k = some ((getVal m k).getD [] ++ [v]) := by
  induction m with
  | nil => simp [pushEntry, getVal]
  | cons hd tl ih =>
    obtain ⟨k', vs⟩ := hd
    by_cases h : k = k'
    · subst h; simp [pushEntry, getVal]
    · simp [pushEntry, getVal, h, ih]

theorem getVal_pushEntry_ne (m : KVMap) {q k : JVal} (v : JVal) (h : q ≠ k) :
    getVal (pushEntry m k v) q = getVal m q := by
  induction m with
  | nil => simp [pushEntry, getVal, h]
  | cons hd tl ih =>
    obtain ⟨k', vs⟩ := hd
    by_cases hk : k = k'
    · subst hk; simp [pushEntry, getVal, h]
    · by_cases hq : q = k' <;> simp [pushEntry, getVal, hk, hq, ih]

theorem pickVals_cons (kv : JVal × JVal) (kvs : List (JVal × JVal)) (q : JVal) :
    pickVals (kv :: kvs) q
      = (if kv.1 = q then [kv.2] else []) ++ pickVals kvs q := by
  by_cases h : kv.1 = q <;> simp [pickVals, h]

theorem getVal_pushAll {q : JVal} (hq : truthy q = true) (kvs : List (JVal × JVal)) :
    ∀ m : KVMap, getVal (pushAll m kvs) q = combine (getVal m q) (pickVals kvs q) := by
  induction kvs with
  | nil => intro m; simp [pushAll, pickVals, combine_nil]
  | cons kv kvs ih =>
    intro m
    obtain ⟨k1, v1⟩ := kv
    rw [pushAll, ih, pickVals_cons]
    by_cases h : k1 = q
    · subst h
      have hpe : pushIf m k1 v1 = pushEntry m k1 v1 := by simp [pushIf, hq]
      rw [hpe, getVal_pushEntry_self, combine_push]
      simp
    · have hne : q ≠ k1 := fun hc => h hc.symm
      have hgv : getVal (pushIf m k1 v1) q = getVal m q := by
        unfold pushIf
        split
        · exact getVal_pushEntry_ne m v1 hne
        · rfl
      rw [hgv]
      simp [h]

theorem keyVals_nil (f : α → List (JVal × JVal)) (q : JVal) : keyVals f [] q = [] := by
  simp [keyVals]

theorem keyVals_cons (f : α → List (JVal × JVal)) (x : α) (xs : List α) (q : JVal) :
    keyVals f (x :: xs) q = pickVals (f x) q ++ keyVals f xs q := by
  simp [keyVals, pickVals]

theorem getVal_groupByAux {q : JVal} (hq : truthy q = true)
    (f : α → List (JVal × JVal)) (xs : List α) :
    ∀ m : KVMap, getVal (groupByAux f m xs) q = combine (getVal m q) (keyVals f xs q) := by
  induction xs with
  | nil => intro m; simp [groupByAux, keyVals_nil, combine_nil]
  | cons x xs ih =>
    intro m
    rw [groupByAux, ih, getVal_pushAll hq, combine_append, keyVals_cons]

theorem getVal_groupKV {q : JVal} (hq : truthy q = true)
    (f : α → List (JVal × JVal)) (xs : List α) :
    getVal (groupKV f xs) q = combine none (keyVals f xs q) := by
  rw [groupKV, getVal_groupByAux hq]
  rfl

theorem mapKeys_pushEntry (m : KVMap) (k : JVal) (v : JVal) :
    mapKeys (pushEntry m k v)
      = if k ∈ mapKeys m then mapKeys m else mapKeys m ++ [k] := by
  induction m with
  | nil => simp [pushEntry, mapKeys]
  | cons hd tl ih =>
    obtain ⟨k', vs⟩ := hd
    by_cases h : k = k'
    · subst h; simp [pushEntry, mapKeys]
    · simp only [mapKeys] at ih
      simp only [pushEntry, h, if_neg, ite_false, mapKeys, List.map_cons, ih, List.mem_cons]
      by_cases hm : k ∈ List.map (fun ent => ent.1) tl <;>
        simp [hm, h]

theorem nodup_pushEntry {m : KVMap} (h : (mapKeys m).Nodup) (k : JVal) (v : JVal) :
    (mapKeys (pushEntry m k v)).Nodup := by
  rw [mapKeys_pushEntry]
  split
  · exact h
  · simp only [List.nodup_append, List.nodup_cons, List.nodup_nil]
    refine ⟨h, by simp, ?_⟩
    intro a ha hb
    simp only [List.mem_singleton] at hb
    subst hb
    exact absurd ha (by assumption)

theorem nodup_pushAll {m : KVMap} (h : (mapKeys m).Nodup) (kvs : List (JVal × JVal)) :
    (mapKeys (pushAll m kvs)).Nodup := by
  induction kvs generalizing m with
  | nil => exact h
  | cons kv kvs ih =>
    rw [pushAll]
    apply ih
    unfold pushIf
    split
    · exact nodup_pushEntry h kv.1 kv.2
    · exact h

theorem nodup_groupByAux {m : KVMap} (h : (mapKeys m).Nodup)
    (f : α → List (JVal × JVal)) (xs : List α) :
    (mapKeys (groupByAux f m xs)).Nodup := by
  induction xs generalizing m with
  | nil => exact h
  | cons x xs ih => exact ih (nodup_pushAll h (f x))

theorem nodup_groupKV (f : α → List (JVal × JVal)) (xs : List α) :
    (mapKeys (groupKV f xs)).Nodup :=
  nodup_groupByAux (by simp [mapKeys]) f xs

theorem entriesFor_eq_nil {m : KVMap} {q : JVal} (h : q ∉ mapKeys m) :
    entriesFor m q = [] := by
  induction m with
  | nil => rfl
  | cons hd tl ih =>
    obtain ⟨k, vs⟩ := hd
    simp only [mapKeys, List.map_cons, List.mem_cons] at h
    push_neg at h
    have hk : ¬ k = q := fun hc => h.1 hc.symm
    simp only [entriesFor, List.filterMap_cons, hk, if_neg, ite_false]
    exact ih (by simpa [mapKeys] using h.2)

theorem entriesFor_eq_getVal {m : KVMap} (h : (mapKeys m).Nodup) (q : JVal) :
    entriesFor m q = (getVal m q).toList := by
  induction m with
  | nil => rfl
  | cons hd tl ih =>
    obtain ⟨k, vs⟩ := hd
    simp only [mapKeys, List.map_cons, List.nodup_cons] at h
    by_cases hq : q = k
    · subst hq
      have hnil : entriesFor tl q = [] := entriesFor_eq_nil h.1
      have hcons : entriesFor ((q, vs) :: tl) q = vs :: entriesFor tl q := by
        simp [entriesFor, List.filterMap_cons]
      rw [hcons, hnil]
      simp [getVal]
    · have hk : ¬ k = q := fun hc => hq hc.symm
      simp only [entriesFor, getVal, List.filterMap_cons, hk, if_neg, ite_false, hq]
      exact ih (by simpa [mapKeys] using h.2)

theorem mem_entriesFor {m : KVMap} {q : JVal} {vs : List JVal} (h : (q, vs) ∈ m) :
    vs ∈ entriesFor m q := by
  unfold entriesFor
  exact List.mem_filterMap.mpr ⟨(q, vs), h, by simp⟩

/-! ## The contribution functions in closed form -/

theorem keyVals_dupContrib (ns : List Node) (rn : JVal) :
    keyVals dupContrib ns rn
      = ns.filterMap (fun n =>
          if n.type == .str "bundleNode" || n.type == .str "ghostNode" then none
          else if nodePropVal n "reference_name" = rn then some n.id else none) := by
  induction ns with
  | nil => simp [keyVals]
  | cons n ns ih =>
    rw [keyVals_cons, ih, List.filterMap_cons]
    by_cases h1 : (n.type == JVal.str "bundleNode" || n.type == JVal.str "ghostNode") = true
    · simp [dupContrib, h1, pickVals]
    · by_cases h2 : nodePropVal n "reference_name" = rn
      · simp [dupContrib, h1, h2, pickVals]
      · simp [dupContrib, h1, h2, pickVals]

theorem keyVals_dupContrib_eq (d : Diagram) (rn : JVal) :
    keyVals dupContrib (nodesOf d) rn = dupMembers d rn :=
  keyVals_dupContrib (nodesOf d) rn

theorem keyVals_mwContrib (ghosts : List JVal) (es : List Edge) (p : JVal) :
    keyVals (mwContrib ghosts) es p
      = es.flatMap (fun e =>
          if e.type == .str "bundledEdge" then []
          else if ghosts.contains e.source || ghosts.contains e.target then []
          else (if e.sourceHandle = p then [e.id] else [])
            ++ (if e.targetHandle = p then [e.id] else [])) := by
  induction es with
  | nil => simp [keyVals]
  | cons e es ih =>
    rw [keyVals_cons, ih, List.flatMap_cons]
    by_cases h1 : (e.type == JVal.str "bundledEdge") = true
    · simp [mwContrib, h1, pickVals]
    · by_cases h2 : e.source ∈ ghosts ∨ e.target ∈ ghosts
      · simp [mwContrib, h1, h2, pickVals]
      · by_cases h3 : e.sourceHandle = p <;> by_cases h4 : e.targetHandle = p <;>
          simp [mwContrib, h1, h2, h3, h4, pickVals]

theorem keyVals_mwContrib_eq (d : Diagram) (p : JVal) :
    keyVals (mwContrib (ghostIds d)) (edgesOf d) p = pinOcc d p :=
  keyVals_mwContrib (ghostIds d) (edgesOf d) p

/-! ## Counterexample theorems -/

/-- Claim C1 is false as stated: on `dPowCex` both endpoint pins resolve in
the Pin-Function Index, to GND and TX+, an unordered pair outside the
claim's list (which pairs PWR with GND or a serial role only), yet the
power rule emits an error finding for the edge. -/
theorem power_rule_cex :
    buildPinMap dPowCex = .ok [(.str "P1", "GND"), (.str "P2", "TX+")] ∧
    ("GND", "TX+") ∉ claimedPowerPairs ∧ ("TX+", "GND") ∉ claimedPowerPairs ∧
    checkPowerConnections dPowCex =
      .ok [⟨some (.str "E1"), .error, "Invalid power connection on wire \"E1\": GND → TX+"⟩] := by
  decide

/-- Claim C2 is false as stated: on `dOrdCex` the aggregate places the
floating-bundled-wire finding after the orphan finding, not in the
catalog position (second) that the claim states; both computations return
normally, so the difference is purely one of order. -/
theorem runERC_order_cex :
    (runERC dOrdCex).map (fun pr => pr.1) ≠ claimedOrderResults dOrdCex ∧
    okE ((runERC dOrdCex).map (fun pr => pr.1)) = true ∧
    okE (claimedOrderResults dOrdCex) = true ∧
    checkOrphanComponents dOrdCex =
      [⟨some (.str "N1"), .error, "Component N1 is an orphan component."⟩] ∧
    checkFloatingBundledWires dOrdCex =
      [⟨some (.str "B1"), .error,
        "Wire in cable \"Unknown cable\" (unknown color) is floating — one end is not connected."⟩] ∧
    (runERC dOrdCex).map (fun pr => pr.1) =
      .ok [⟨some (.str "N1"), .error, "Component N1 is an orphan component."⟩,
        ⟨some (.str "B1"), .error,
          "Wire in cable \"Unknown cable\" (unknown color) is floating — one end is not connected."⟩] := by
  decide

/-- Claim C3 is false as stated: a numeric `part_name` value (truthy but not
a string) makes `checkMissingPartNames` reach `partName.trim()` and throw,
and the error propagates out of `runERC`. -/
theorem rules_throw_cex :
    checkMissingPartNames dThrowCex = .error () ∧ runERC dThrowCex = .error () := by
  decide

/-- Claim C4 is false as stated: on `dFloatCex` the edge's source is present
(the empty string, not absent), its target is present, and the diagram has
no ghost nodes, yet the floating-wire rule flags the edge, because the
source tests JS-falsiness rather than absence. -/
theorem floating_claim_cex :
    eFloatCex.source ≠ JVal.absent ∧ eFloatCex.target ≠ JVal.absent ∧
    ghostIds dFloatCex = [] ∧
    checkFloatingWires dFloatCex =
      [⟨some (.str "E1"), .error, "Wire \"E1\" is floating — one end is not connected."⟩] := by
  decide

/-- Claim C9 is false as stated: on `dGenCex` a `length` display property is
present (with an empty value), yet no mechanical instruction is emitted —
only the unconditional continuity instruction — because the generator tests
the value's JS-truthiness, not the property's presence. -/
theorem gen_mech_cex :
    ((edgeProps eGenCex).getD []).any (fun p => p.key == .str "length") = true ∧
    generateTestInstructions dGenCex =
      .ok [⟨.str "E1", .continuity,
        "Perform a continuity check along wire E1 (unknown color). Ensure resistance < 1 Ω."⟩] := by
  decide

/-! ## Claim theorems: floating wires -/

theorem contains_ghostIds (d : Diagram) (v : JVal) :
    (ghostIds d).contains v = true ↔ isGhostId d v := by
  simp [ghostIds, isGhostId, List.mem_filterMap]

/-- Claim C4, amended: the floating-wire rule is the concatenation, over the
edges in order, of a per-edge check; a bundled edge is never flagged; a
non-bundled edge receives exactly one finding — an error carrying the edge
id — precisely when its source or its target is JS-falsy (absent, the empty
string, or zero) or is the id of a `ghostNode`, and no finding otherwise. -/
theorem floating_rule_spec (d : Diagram) (e : Edge) :
    checkFloatingWires d = (edgesOf d).flatMap (floatBody (ghostIds d)) ∧
    (e.type = JVal.str "bundledEdge" → floatBody (ghostIds d) e = []) ∧
    (e.type ≠ JVal.str "bundledEdge" →
      ((floatBody (ghostIds d) e ≠ []) ↔
        (truthy e.source = false ∨ truthy e.target = false
          ∨ isGhostId d e.source ∨ isGhostId d e.target)) ∧
      (floatBody (ghostIds d) e).length ≤ 1 ∧
      (∀ r ∈ floatBody (ghostIds d) e, r.type = Sev.error ∧ r.id = some e.id)) := by
  refine ⟨rfl, ?_, ?_⟩
  · intro ht
    simp [floatBody, ht]
  · intro ht
    have hb : (e.type == JVal.str "bundledEdge") = false := by
      simp [ht]
    have hbody : floatBody (ghostIds d) e
        = if (!truthy e.source || !truthy e.target
            || (ghostIds d).contains e.source || (ghostIds d).contains e.target) then
          [⟨some e.id, Sev.error,
            "Wire \""
              ++ jstr (if truthy (edgePropVal e "reference_name")
                then edgePropVal e "reference_name" else e.id)
              ++ "\" is floating — one end is not connected."⟩]
        else [] := by
      simp [floatBody, hb]
    refine ⟨?_, ?_, ?_⟩
    · rw [hbody]
      by_cases hc : (!truthy e.source || !truthy e.target
          || (ghostIds d).contains e.source || (ghostIds d).contains e.target) = true
      · simp only [hc, if_true]
        simp only [Bool.or_eq_true, Bool.not_eq_true'] at hc
        constructor
        · intro _
          rcases hc with ((h1 | h1) | h1) | h1
          · exact Or.inl h1
          · exact Or.inr (Or.inl h1)
          · exact Or.inr (Or.inr (Or.inl ((contains_ghostIds d e.source).mp h1)))
          · exact Or.inr (Or.inr (Or.inr ((contains_ghostIds d e.target).mp h1)))
        · intro _
          simp
      · rw [if_neg (by simpa using hc)]
        simp only [Bool.or_eq_true, Bool.not_eq_true'] at hc
        push_neg at hc
        constructor
        · intro hfalse
          exact absurd rfl hfalse
        · rintro (h1 | h1 | h1 | h1)
          · exact absurd h1 hc.1.1.1
          · exact absurd h1 hc.1.1.2
          · exact absurd ((contains_ghostIds d e.source).mpr h1) hc.1.2
          · exact absurd ((contains_ghostIds d e.target).mpr h1) hc.2
    · rw [hbody]
      split <;> simp
    · rw [hbody]
      split <;> simp

/-- Witness for C4: on the edge whose source is the empty string and whose
diagram has no ghost nodes, the per-edge check flags the edge, and the
amended condition holds there. -/
theorem floating_rule_spec_witness :
    (floatBody (ghostIds dFloatCex) eFloatCex ≠ []) ↔
      (truthy eFloatCex.source = false ∨ truthy eFloatCex.target = false
        ∨ isGhostId dFloatCex eFloatCex.source ∨ isGhostId dFloatCex eFloatCex.target) :=
  ((floating_rule_spec dFloatCex eFloatCex).2.2 (by decide)).1

/-- Claim C5: the floating-bundled-wire rule is the concatenation, over the
edges in order, of a per-edge check; a bundled edge whose source or target
is absent or resolves to a `ghostNode` receives exactly one error finding,
and when the parent cable edge designated by the sub-wire's
`data.parent_id` resolves with a nonempty reference-name string, the
finding's message contains that name. -/
theorem bundled_floating_spec (d : Diagram) (e pe : Edge) (rn : String)
    (ht : e.type = JVal.str "bundledEdge")
    (hc : e.source = JVal.absent ∨ e.target = JVal.absent
      ∨ isGhostId d e.source ∨ isGhostId d e.target)
    (hpe : (edgesOf d).find? (fun x => x.id == parentIdOf e) = some pe)
    (hrn : edgePropVal pe "reference_name" = JVal.str rn)
    (hne : rn ≠ "") :
    checkFloatingBundledWires d = (edgesOf d).flatMap (bundledFloatBody d (ghostIds d)) ∧
    ∃ msg, bundledFloatBody d (ghostIds d) e = [⟨some e.id, Sev.error, msg⟩] ∧
      ∃ a b, msg = a ++ rn ++ b := by
  refine ⟨rfl, ?_⟩
  have hcb : (!truthy e.source || !truthy e.target
      || (ghostIds d).contains e.source || (ghostIds d).contains e.target) = true := by
    rcases hc with h | h | h | h
    · rw [h]; simp [truthy]
    · rw [h]; simp [truthy]
    · have hm : e.source ∈ ghostIds d := by
        simpa using (contains_ghostIds d e.source).mpr h
      simp [hm]
    · have hm : e.target ∈ ghostIds d := by
        simpa using (contains_ghostIds d e.target).mpr h
      simp [hm]
  have htb : (e.type == JVal.str "bundledEdge") = true := by simp [ht]
  have htr : truthy (JVal.str rn) = true := by
    have hi : rn.isEmpty = false := by
      rw [Bool.eq_false_iff]
      intro hct
      exact hne ((String.isEmpty_iff rn).mp hct)
    simp [truthy, hi]
  refine ⟨bundledMsg (.str rn) (edgePropVal e "insulation"), ?_, ?_⟩
  · rw [bundledFloatBody]
    rw [htb]
    simp only [Bool.not_true, Bool.false_eq_true, if_false, hcb, if_true, hpe, hrn, htr]
  · refine ⟨"Wire in cable \"",
      "\" (" ++ (if truthy (edgePropVal e "insulation")
        then jstr (edgePropVal e "insulation") else "unknown color")
        ++ ") is floating — one end is not connected.", ?_⟩
    simp [bundledMsg, jstr, String.append_assoc]

/-- Witness for C5: the floating sub-wire of cable C1 produces exactly one
error finding whose message contains the cable name CAB. -/
theorem bundled_floating_spec_witness :
    ∃ msg, bundledFloatBody dBundW (ghostIds dBundW) subWire
        = [⟨some subWire.id, Sev.error, msg⟩] ∧
      ∃ a b, msg = a ++ "CAB" ++ b :=
  (bundled_floating_spec dBundW subWire cableEdge "CAB" (by decide)
    (Or.inl (by decide)) (by decide) (by decide) (by decide)).2

/-! ## Claim theorems: role-based rules -/

theorem any_validCombos (sf tf : String) :
    (validCombos.any (fun ab => sf == ab.1 && tf == ab.2)) = true ↔ (sf, tf) ∈ validCombos := by
  simp [validCombos, Prod.ext_iff]

/-- Claim C7: the serial rule examines every edge (bundled edges included);
an edge whose endpoint pin ids do not both resolve in the Pin-Function
Index, or whose resolved role pair is not entirely within the serial set,
is silently ignored; when both roles are serial, exactly one error finding
carrying the edge id is emitted precisely when the ordered (source role,
target role) pair is none of the valid complementary pairs. -/
theorem serial_rule_spec (d : Diagram) (pm : PinMap) (hpm : buildPinMap d = .ok pm) :
    checkSerialConnections d = .ok ((edgesOf d).flatMap (serialEdgeCheck d pm)) ∧
    (∀ e : Edge, (getPin pm e.sourceHandle = none ∨ getPin pm e.targetHandle = none) →
      serialEdgeCheck d pm e = []) ∧
    ∀ (e : Edge) (sf tf : String),
      getPin pm e.sourceHandle = some sf → getPin pm e.targetHandle = some tf →
      ((sf ∉ serialPins ∨ tf ∉ serialPins) → serialEdgeCheck d pm e = []) ∧
      (sf ∈ serialPins → tf ∈ serialPins →
        ((serialEdgeCheck d pm e ≠ []) ↔ (sf, tf) ∉ validCombos) ∧
        (serialEdgeCheck d pm e).length ≤ 1 ∧
        ∀ r ∈ serialEdgeCheck d pm e, r.type = Sev.error ∧ r.id = some e.id) := by
  refine ⟨?_, ?_, ?_⟩
  · unfold checkSerialConnections
    rw [hpm]
    rfl
  · intro e h
    rcases h with h | h
    · unfold serialEdgeCheck
      rw [h]
    · unfold serialEdgeCheck
      rw [h]
      rcases hgs : getPin pm e.sourceHandle with _ | sf <;> rfl
  · intro e sf tf hs htt
    have hbody : serialEdgeCheck d pm e
        = (if !(serialPins.contains sf) || !(serialPins.contains tf) then []
          else if validCombos.any (fun ab => sf == ab.1 && tf == ab.2) then []
          else
            [⟨some e.id, Sev.error,
              "Invalid serial connection on wire \"" ++ jstr (getEdgeName d e.id)
                ++ "\": " ++ sf ++ " → " ++ tf⟩]) := by
      unfold serialEdgeCheck
      rw [hs, htt]
    constructor
    · intro h
      rw [hbody]
      have hcond : (!(serialPins.contains sf) || !(serialPins.contains tf)) = true := by
        rcases h with h | h <;> simp [h]
      rw [if_pos hcond]
    · intro hsf htf
      have hms : serialPins.contains sf = true := by simpa using hsf
      have hmt : serialPins.contains tf = true := by simpa using htf
      have hbody2 : serialEdgeCheck d pm e
          = (if validCombos.any (fun ab => sf == ab.1 && tf == ab.2) then []
            else
              [⟨some e.id, Sev.error,
                "Invalid serial connection on wire \"" ++ jstr (getEdgeName d e.id)
                  ++ "\": " ++ sf ++ " → " ++ tf⟩]) := by
        rw [hbody, hms, hmt]
        rfl
      refine ⟨?_, ?_, ?_⟩
      · rw [hbody2]
        by_cases hv : (validCombos.any (fun ab => sf == ab.1 && tf == ab.2)) = true
        · rw [if_pos hv]
          simp [(any_validCombos sf tf).mp hv]
        · rw [if_neg hv]
          have : (sf, tf) ∉ validCombos := fun hc =>
            hv ((any_validCombos sf tf).mpr hc)
          simp [this]
      · rw [hbody2]
        split <;> simp
      · rw [hbody2]
        split <;> simp

/-- Witness for C7: on the diagram wiring two TX+ pins together, with both
roles serial and the ordered pair (TX+, TX+) not a valid complementary
pair, the per-edge serial check fires. -/
theorem serial_rule_spec_witness :
    (serialEdgeCheck dSerW [(.str "P1", "TX+"), (.str "P2", "TX+")] edgeP1P2 ≠ []) ↔
      ("TX+", "TX+") ∉ validCombos :=
  (((serial_rule_spec dSerW [(.str "P1", "TX+"), (.str "P2", "TX+")] (by decide)).2.2
    edgeP1P2 "TX+" "TX+" (by decide) (by decide)).2 (by decide) (by decide)).1

theorem mem_illegal_iff (sf tf : String) :
    (sf, tf) ∈ illegalCombos ↔ pwrIllegalPair sf tf := by
  constructor
  · intro h
    simp only [illegalCombos, List.mem_cons, List.not_mem_nil, or_false,
      Prod.mk.injEq] at h
    rcases h with ⟨h1, h2⟩ | ⟨h1, h2⟩ | ⟨h1, h2⟩ | ⟨h1, h2⟩ | ⟨h1, h2⟩ | ⟨h1, h2⟩ |
      ⟨h1, h2⟩ | ⟨h1, h2⟩ | ⟨h1, h2⟩ | ⟨h1, h2⟩ | ⟨h1, h2⟩ | ⟨h1, h2⟩ | ⟨h1, h2⟩ |
      ⟨h1, h2⟩ | ⟨h1, h2⟩ | ⟨h1, h2⟩ | ⟨h1, h2⟩ | ⟨h1, h2⟩ <;> subst h1 <;> subst h2 <;>
      simp [pwrIllegalPair]
  · intro h
    rcases h with ⟨h1, h2⟩ | ⟨h1, h2⟩ | ⟨h1, h2⟩ | ⟨h1, h2⟩ <;> subst h1 <;>
      fin_cases h2 <;> decide

/-- Claim C1, amended: the power rule skips bundled edges and edges whose
endpoint pin ids do not both resolve; when both resolve, it emits exactly
one error finding carrying the edge id precisely when the unordered role
pair is PWR with GND, PWR with a serial role, or GND with a serial role
(in either direction), and nothing otherwise. -/
theorem power_rule_spec (d : Diagram) (pm : PinMap) (hpm : buildPinMap d = .ok pm) :
    checkPowerConnections d = .ok ((edgesOf d).flatMap (powerEdgeCheck d pm)) ∧
    ∀ (e : Edge) (sf tf : String),
      e.type ≠ JVal.str "bundledEdge" →
      getPin pm e.sourceHandle = some sf → getPin pm e.targetHandle = some tf →
      ((powerEdgeCheck d pm e ≠ []) ↔ pwrIllegalPair sf tf) ∧
      (∀ r ∈ powerEdgeCheck d pm e, r.type = Sev.error ∧ r.id = some e.id) ∧
      (pwrIllegalPair sf tf → (powerEdgeCheck d pm e).length = 1) := by
  constructor
  · unfold checkPowerConnections
    rw [hpm]
    rfl
  · intro e sf tf hb hs htt
    have hbt : (e.type == JVal.str "bundledEdge") = false := by simp [hb]
    have hbody : powerEdgeCheck d pm e
        = illegalCombos.flatMap (fun ab =>
            if sf == ab.1 && tf == ab.2 then
              [⟨some e.id, Sev.error,
                "Invalid power connection on wire \"" ++ jstr (getEdgeName d e.id)
                  ++ "\": " ++ sf ++ " → " ++ tf⟩]
            else []) := by
      simp [powerEdgeCheck, hbt, hs, htt]
    have hforall : ∀ r ∈ powerEdgeCheck d pm e, r.type = Sev.error ∧ r.id = some e.id := by
      intro r hr
      rw [hbody] at hr
      simp only [List.mem_flatMap] at hr
      obtain ⟨ab, _, hr⟩ := hr
      by_cases hc : (sf == ab.1 && tf == ab.2) = true
      · rw [if_pos hc] at hr
        simp only [List.mem_singleton] at hr
        rw [hr]
        exact ⟨rfl, rfl⟩
      · rw [if_neg hc] at hr
        cases hr
    have hlen : pwrIllegalPair sf tf → (powerEdgeCheck d pm e).length = 1 := by
      intro hp
      rw [hbody]
      rcases hp with ⟨h1, h2⟩ | ⟨h1, h2⟩ | ⟨h1, h2⟩ | ⟨h1, h2⟩ <;> subst h1 <;>
        fin_cases h2 <;> simp [illegalCombos]
    refine ⟨?_, hforall, hlen⟩
    constructor
    · intro hne
      obtain ⟨r, hr⟩ := List.exists_mem_of_ne_nil _ hne
      rw [hbody] at hr
      simp only [List.mem_flatMap] at hr
      obtain ⟨ab, habm, hr⟩ := hr
      by_cases hc : (sf == ab.1 && tf == ab.2) = true
      · simp only [Bool.and_eq_true, beq_iff_eq] at hc
        have hab : (sf, tf) ∈ illegalCombos := by
          have hst : (sf, tf) = ab := Prod.ext hc.1 hc.2
          rw [hst]
          exact habm
        exact (mem_illegal_iff sf tf).mp hab
      · rw [if_neg hc] at hr
        cases hr
    · intro hp hc
      have := hlen hp
      rw [hc] at this
      cases this

/-- Witness for C1: on the diagram wiring a PWR pin to a GND pin, the
per-edge power check fires exactly when the PWR–GND pair is illegal. -/
theorem power_rule_spec_witness :
    (powerEdgeCheck dPowW [(.str "P1", "PWR"), (.str "P2", "GND")] edgeP1P2 ≠ []) ↔
      pwrIllegalPair "PWR" "GND" :=
  ((power_rule_spec dPowW [(.str "P1", "PWR"), (.str "P2", "GND")] (by decide)).2
    edgeP1P2 "PWR" "GND" (by decide) (by decide) (by decide)).1

/-! ## Monadic inversion and generator shape lemmas -/

theorem bindE_ok {α β : Type} {x : Except Unit α} {f : α → Except Unit β} {b : β}
    (h : (x >>= f) = .ok b) : ∃ a, x = .ok a ∧ f a = .ok b := by
  cases x with
  | ok a => exact ⟨a, rfl, h⟩
  | error u => exact Except.noConfusion h

theorem genBody_ok_shape (e : Edge) (l : List TestInstruction)
    (hb : e.type ≠ JVal.str "bundledEdge") (h : genBody e = .ok l) :
    ∃ (color : String) (hPWR hGND hTX hRX : Bool),
      colorOf e = .ok color ∧
      someContains (genProps e) "PWR" = .ok hPWR ∧
      someContains (genProps e) "GND" = .ok hGND ∧
      someContains (genProps e) "TX" = .ok hTX ∧
      someContains (genProps e) "RX" = .ok hRX ∧
      l = [contIns e color]
        ++ (if truthy (edgePropVal e "length") then [mechIns e] else [])
        ++ (if hPWR && hGND then [powIns e] else [])
        ++ (if hTX || hRX then [sigIns e hTX] else []) := by
  have hbt : (e.type == JVal.str "bundledEdge") = false := by simp [hb]
  rw [genBody, hbt] at h
  simp only [Bool.false_eq_true, if_false] at h
  obtain ⟨color, hc, h⟩ := bindE_ok h
  obtain ⟨hPWR, h1, h⟩ := bindE_ok h
  obtain ⟨hGND, h2, h⟩ := bindE_ok h
  obtain ⟨hTX, h3, h⟩ := bindE_ok h
  obtain ⟨hRX, h4, h⟩ := bindE_ok h
  exact ⟨color, hPWR, hGND, hTX, hRX, hc, h1, h2, h3, h4, (Except.ok.inj h).symm⟩

theorem exFlatMap_ok_inv {α β : Type} (f : α → Except Unit (List β)) :
    ∀ (xs : List α) (r : List β), exFlatMap f xs = .ok r →
      ∃ ls, List.Forall₂ (fun x l => f x = .ok l) xs ls ∧ r = ls.flatten := by
  intro xs
  induction xs with
  | nil =>
    intro r h
    exact ⟨[], List.Forall₂.nil, (Except.ok.inj h).symm⟩
  | cons x xs ih =>
    intro r h
    rw [exFlatMap] at h
    obtain ⟨l, hl, h⟩ := bindE_ok h
    obtain ⟨rest, hrest, h⟩ := bindE_ok h
    obtain ⟨ls, hf, hflat⟩ := ih rest hrest
    refine ⟨l :: ls, List.Forall₂.cons hl hf, ?_⟩
    rw [(Except.ok.inj h).symm, hflat]
    rfl

theorem mem_ite_singleton {α : Type} {c : Prop} [inst : Decidable c] {x t : α}
    (h : t ∈ (if c then [x] else [])) : t = x := by
  split at h
  · simpa using h
  · simp at h

/-- Claim C10: the test-instruction list is the flattening, in the diagram's
original edge order, of per-edge instruction lists, and each per-edge list
carries the edge's id on every instruction and has its categories in the
fixed order continuity, mechanical, power, signal, each of the last three
present or absent as a whole. -/
theorem gen_order_spec (d : Diagram) (ts : List TestInstruction)
    (h : generateTestInstructions d = .ok ts) :
    (∃ ls, List.Forall₂ (fun e l => genBody e = .ok l) (edgesOf d) ls ∧ ts = ls.flatten) ∧
    ∀ (e : Edge) (l : List TestInstruction), genBody e = .ok l →
      (∀ t ∈ l, t.id = e.id) ∧
      ∃ b1 b2 b3 : Bool, l.map (fun t => t.category)
        = (if e.type = JVal.str "bundledEdge" then []
          else Cat.continuity ::
            ((if b1 = true then [Cat.mechanical] else [])
              ++ (if b2 = true then [Cat.power] else [])
              ++ (if b3 = true then [Cat.signal] else []))) := by
  constructor
  · exact exFlatMap_ok_inv genBody (edgesOf d) ts h
  · intro e l hgl
    by_cases hb : e.type = JVal.str "bundledEdge"
    · have hbt : (e.type == JVal.str "bundledEdge") = true := by simp [hb]
      have h0 : genBody e = .ok [] := by simp [genBody, hbt]
      rw [h0] at hgl
      have hl : l = [] := (Except.ok.inj hgl).symm
      subst hl
      constructor
      · intro t ht
        cases ht
      · exact ⟨true, true, true, by simp [hb]⟩
    · obtain ⟨color, hPWR, hGND, hTX, hRX, hc, h1, h2, h3, h4, hl⟩ :=
        genBody_ok_shape e l hb hgl
      constructor
      · intro t ht
        rw [hl] at ht
        simp only [List.mem_append, List.mem_singleton] at ht
        rcases ht with ((ht | ht) | ht) | ht
        · rw [ht]; rfl
        · rw [mem_ite_singleton ht]; rfl
        · rw [mem_ite_singleton ht]; rfl
        · rw [mem_ite_singleton ht]; rfl
      · refine ⟨truthy (edgePropVal e "length"), hPWR && hGND, hTX || hRX, ?_⟩
        rw [hl, if_neg hb]
        simp [List.map_append, apply_ite (List.map (fun t : TestInstruction => t.category)),
          contIns, mechIns, powIns, sigIns]

/-- Witness for C10: on the one-edge diagram `dGenCex` the generator's
output is the flattening of per-edge lists in edge order. -/
theorem gen_order_spec_witness :
    ∃ ls, List.Forall₂ (fun e l => genBody e = .ok l) (edgesOf dGenCex) ls ∧
      [(⟨.str "E1", Cat.continuity,
        "Perform a continuity check along wire E1 (unknown color). Ensure resistance < 1 Ω."⟩
          : TestInstruction)] = ls.flatten :=
  (gen_order_spec dGenCex
    [⟨.str "E1", Cat.continuity,
      "Perform a continuity check along wire E1 (unknown color). Ensure resistance < 1 Ω."⟩]
    (by decide)).1

/-- Claim C2, amended: when every fallible rule returns normally, the
aggregate is the concatenation of the rule outputs in the source's actual
order — floating wire, orphan component, duplicate reference name, multiple
wires, power, serial, missing part names, missing lengths, and floating
bundled wire last — each rule's own findings following the original
node/edge sequence (the per-edge rules are flat-maps over the edges in
order). -/
theorem runERC_order_spec (d : Diagram) (p s pn ml : List ERCResult)
    (ts : List TestInstruction)
    (hp : checkPowerConnections d = .ok p) (hs : checkSerialConnections d = .ok s)
    (hpn : checkMissingPartNames d = .ok pn) (hml : checkMissingLengths d = .ok ml)
    (hts : generateTestInstructions d = .ok ts) :
    runERC d = .ok (checkFloatingWires d ++ checkOrphanComponents d ++ checkDuplicates d
      ++ checkMultipleWires d ++ p ++ s ++ pn ++ ml ++ checkFloatingBundledWires d, ts) ∧
    checkFloatingWires d = (edgesOf d).flatMap (floatBody (ghostIds d)) ∧
    checkFloatingBundledWires d = (edgesOf d).flatMap (bundledFloatBody d (ghostIds d)) := by
  refine ⟨?_, rfl, rfl⟩
  unfold runERC
  rw [hp, hs, hpn, hml, hts]
  rfl

/-- Witness for C2's amended statement: on the empty diagram every rule
returns normally and the aggregate is the stated concatenation. -/
theorem runERC_order_spec_witness :
    runERC dEmpty = .ok (checkFloatingWires dEmpty ++ checkOrphanComponents dEmpty
      ++ checkDuplicates dEmpty ++ checkMultipleWires dEmpty ++ [] ++ [] ++ [] ++ []
      ++ checkFloatingBundledWires dEmpty, []) :=
  (runERC_order_spec dEmpty [] [] [] [] [] (by decide) (by decide) (by decide)
    (by decide) (by decide)).1

/-! ## Totality under string-or-absent values -/

theorem andE {a b : Bool} (h : (a && b) = true) : a = true ∧ b = true := by
  simp at h
  exact ⟨h.1, h.2⟩

theorem propVal_safe {ps : Option (List DProp)} (h : propsSafe ps = true) (k : String) :
    strOrAbsent (propVal ps k) = true := by
  cases ps with
  | none => rfl
  | some l =>
    rw [propVal]
    cases hf : l.find? (fun pr => pr.key == .str k) with
    | none => rfl
    | some pr =>
      have hm : pr ∈ l := List.mem_of_find?_eq_some hf
      have hall : ∀ q ∈ l, strOrAbsent q.value = true := by
        simpa [propsSafe, List.all_eq_true] using h
      exact hall pr hm

theorem upperVal_ok {v : JVal} (hv : strOrAbsent v = true) (ht : truthy v = true) :
    ∃ u, upperVal v = .ok u := by
  cases v with
  | str s => exact ⟨jsUpper s, rfl⟩
  | num n => simp [strOrAbsent] at hv
  | absent => simp [truthy] at ht

theorem trimVal_ok {v : JVal} (hv : strOrAbsent v = true) (ht : truthy v = true) :
    ∃ u, trimVal v = .ok u := by
  cases v with
  | str s => exact ⟨jsTrim s, rfl⟩
  | num n => simp [strOrAbsent] at hv
  | absent => simp [truthy] at ht

theorem valHasSub_ok {v : JVal} (hv : strOrAbsent v = true) (pat : String) :
    ∃ b, valHasSub v pat = .ok b := by
  cases v with
  | str s => exact ⟨hasSubstr (jsUpper s) pat, rfl⟩
  | num n => simp [strOrAbsent] at hv
  | absent => exact ⟨false, rfl⟩

theorem ite_pure_ok {β : Type} {c : Prop} [inst : Decidable c] (a b : β) :
    ∃ l, (if c then (pure a : Except Unit β) else pure b) = .ok l := by
  split
  · exact ⟨a, rfl⟩
  · exact ⟨b, rfl⟩

theorem addPin_ok {m : PinMap} {p : Pin} (hp : strOrAbsent p.function = true) :
    ∃ m2, addPin m p = .ok m2 := by
  rw [addPin]
  by_cases hc : (truthy p.id && truthy p.function) = true
  · rw [if_pos hc]
    obtain ⟨u, hu⟩ := upperVal_ok hp (andE hc).2
    rw [hu]
    exact ⟨setEntry m p.id u, rfl⟩
  · rw [if_neg hc]
    exact ⟨m, rfl⟩

theorem addPins_ok {ps : List Pin} (hps : ∀ p ∈ ps, strOrAbsent p.function = true) :
    ∀ m, ∃ m2, addPins m ps = .ok m2 := by
  induction ps with
  | nil => intro m; exact ⟨m, rfl⟩
  | cons p ps ih =>
    intro m
    obtain ⟨m1, h1⟩ := addPin_ok (m := m) (hps p (List.mem_cons_self p ps))
    rw [addPins, h1]
    exact ih (fun x hx => hps x (List.mem_cons_of_mem p hx)) m1

theorem addPorts_ok {pts : List Port}
    (hpts : ∀ pt ∈ pts, ∀ p ∈ pt.pins.getD [], strOrAbsent p.function = true) :
    ∀ m, ∃ m2, addPorts m pts = .ok m2 := by
  induction pts with
  | nil => intro m; exact ⟨m, rfl⟩
  | cons pt pts ih =>
    intro m
    obtain ⟨m1, h1⟩ := addPins_ok (hpts pt (List.mem_cons_self pt pts)) m
    rw [addPorts, h1]
    exact ih (fun x hx => hpts x (List.mem_cons_of_mem pt hx)) m1

theorem addNodes_ok {ns : List Node} (hns : ∀ n ∈ ns, nodeSafe n = true) :
    ∀ m, ∃ m2, addNodes m ns = .ok m2 := by
  induction ns with
  | nil => intro m; exact ⟨m, rfl⟩
  | cons n ns ih =>
    intro m
    have hn := hns n (List.mem_cons_self n ns)
    have hpins : ∀ pt ∈ (n.data.bind (fun dt => dt.ports)).getD [],
        ∀ p ∈ pt.pins.getD [], strOrAbsent p.function = true := by
      have h2 := (andE hn).2
      intro pt hpt p hp
      exact List.all_eq_true.mp (List.all_eq_true.mp h2 pt hpt) p hp
    obtain ⟨m1, h1⟩ := addPorts_ok hpins m
    rw [addNodes, h1]
    exact ih (fun x hx => hns x (List.mem_cons_of_mem n hx)) m1

theorem buildPinMap_ok {d : Diagram} (h : strSafe d = true) :
    ∃ pm, buildPinMap d = .ok pm := by
  have hns : ∀ n ∈ nodesOf d, nodeSafe n = true :=
    List.all_eq_true.mp (andE h).1
  exact addNodes_ok hns []

theorem exFlatMap_okEx {α β : Type} {f : α → Except Unit (List β)} {xs : List α}
    (h : ∀ x ∈ xs, ∃ l, f x = .ok l) : ∃ r, exFlatMap f xs = .ok r := by
  induction xs with
  | nil => exact ⟨[], rfl⟩
  | cons x xs ih =>
    obtain ⟨l, hl⟩ := h x (List.mem_cons_self x xs)
    obtain ⟨r, hr⟩ := ih (fun y hy => h y (List.mem_cons_of_mem x hy))
    rw [exFlatMap, hl, hr]
    exact ⟨l ++ r, rfl⟩

theorem partNameBody_ok {n : Node} (h : propsSafe (nodeProps n) = true) :
    ∃ l, partNameBody n = .ok l := by
  rw [partNameBody]
  by_cases h1 : (n.type == JVal.str "bundleNode" || n.type == JVal.str "ghostNode") = true
  · rw [if_pos h1]
    exact ⟨[], rfl⟩
  · rw [if_neg h1]
    by_cases h2 : (!truthy (nodePropVal n "part_name")) = true
    · rw [if_pos h2]
      exact ⟨_, rfl⟩
    · rw [if_neg h2]
      have ht : truthy (nodePropVal n "part_name") = true := by
        revert h2
        cases truthy (nodePropVal n "part_name") <;> simp
      obtain ⟨t, htv⟩ := trimVal_ok (propVal_safe h "part_name") ht
      have htv2 : trimVal (nodePropVal n "part_name") = Except.ok t := htv
      rw [htv2]
      exact ite_pure_ok _ _

theorem lengthBody_ok (d : Diagram) {e : Edge} (h : propsSafe (edgeProps e) = true) :
    ∃ l, lengthBody d e = .ok l := by
  rw [lengthBody]
  by_cases h1 : (e.type == JVal.str "bundledEdge") = true
  · rw [if_pos h1]
    exact ⟨[], rfl⟩
  · rw [if_neg h1]
    by_cases h2 : (!truthy (edgePropVal e "length")) = true
    · rw [if_pos h2]
      exact ⟨_, rfl⟩
    · rw [if_neg h2]
      have ht : truthy (edgePropVal e "length") = true := by
        revert h2
        cases truthy (edgePropVal e "length") <;> simp
      obtain ⟨t, htv⟩ := trimVal_ok (propVal_safe h "length") ht
      have htv2 : trimVal (edgePropVal e "length") = Except.ok t := htv
      rw [htv2]
      exact ite_pure_ok _ _

theorem someContains_okEx {ps : List DProp} (h : ∀ p ∈ ps, strOrAbsent p.value = true)
    (pat : String) : ∃ b, someContains ps pat = .ok b := by
  induction ps with
  | nil => exact ⟨false, rfl⟩
  | cons p ps ih =>
    obtain ⟨b, hb⟩ := valHasSub_ok (h p (List.mem_cons_self p ps)) pat
    rw [someContains, hb]
    cases b with
    | true => exact ⟨true, rfl⟩
    | false =>
      obtain ⟨b2, hb2⟩ := ih (fun x hx => h x (List.mem_cons_of_mem p hx))
      exact ⟨b2, hb2⟩

theorem genBody_okEx {e : Edge} (h : propsSafe (edgeProps e) = true) :
    ∃ l, genBody e = .ok l := by
  rw [genBody]
  by_cases hb : (e.type == JVal.str "bundledEdge") = true
  · rw [if_pos hb]
    exact ⟨[], rfl⟩
  · rw [if_neg hb]
    have hvals : ∀ p ∈ genProps e, strOrAbsent p.value = true := by
      simpa [genProps, propsSafe, List.all_eq_true] using h
    have hcolor : ∃ c, colorOf e = .ok c := by
      rw [colorOf]
      by_cases hi : truthy (edgePropVal e "insulation") = true
      · rw [if_pos hi]
        exact upperVal_ok (propVal_safe h "insulation") hi
      · rw [if_neg hi]
        exact ⟨"unknown color", rfl⟩
    obtain ⟨c, hc⟩ := hcolor
    obtain ⟨b1, h1⟩ := someContains_okEx hvals "PWR"
    obtain ⟨b2, h2⟩ := someContains_okEx hvals "GND"
    obtain ⟨b3, h3⟩ := someContains_okEx hvals "TX"
    obtain ⟨b4, h4⟩ := someContains_okEx hvals "RX"
    rw [hc, h1, h2, h3, h4]
    exact ⟨_, rfl⟩

/-- Claim C3, amended: when every display-property value and pin function of
the diagram is a string or absent — in particular for all structurally
absent or missing fields and collections — every fallible rule, the
generator, and the aggregate return normally (the remaining rules are total
by construction); a truthy non-string value, however, makes the
corresponding trim or upper-case call throw. -/
theorem rules_total_spec (d : Diagram) (h : strSafe d = true) :
    okE (checkPowerConnections d) = true ∧ okE (checkSerialConnections d) = true ∧
    okE (checkMissingPartNames d) = true ∧ okE (checkMissingLengths d) = true ∧
    okE (generateTestInstructions d) = true ∧ okE (runERC d) = true := by
  obtain ⟨pm, hpm⟩ := buildPinMap_ok h
  have hedges : ∀ e ∈ edgesOf d, propsSafe (edgeProps e) = true :=
    List.all_eq_true.mp (andE h).2
  have hnprops : ∀ n ∈ nodesOf d, propsSafe (nodeProps n) = true := by
    intro n hn
    exact (andE (List.all_eq_true.mp (andE h).1 n hn)).1
  obtain ⟨pn, hpn⟩ := exFlatMap_okEx (fun n hn => partNameBody_ok (hnprops n hn))
  obtain ⟨ml, hml⟩ := exFlatMap_okEx (fun e he => lengthBody_ok d (hedges e he))
  obtain ⟨ts, hts⟩ := exFlatMap_okEx (fun e he => genBody_okEx (hedges e he))
  have hpow : checkPowerConnections d = .ok ((edgesOf d).flatMap (powerEdgeCheck d pm)) := by
    unfold checkPowerConnections
    rw [hpm]
    rfl
  have hser : checkSerialConnections d = .ok ((edgesOf d).flatMap (serialEdgeCheck d pm)) := by
    unfold checkSerialConnections
    rw [hpm]
    rfl
  have hpn2 : checkMissingPartNames d = .ok pn := hpn
  have hml2 : checkMissingLengths d = .ok ml := hml
  have hts2 : generateTestInstructions d = .ok ts := hts
  have hrun : runERC d = .ok (checkFloatingWires d ++ checkOrphanComponents d
      ++ checkDuplicates d ++ checkMultipleWires d
      ++ (edgesOf d).flatMap (powerEdgeCheck d pm) ++ (edgesOf d).flatMap (serialEdgeCheck d pm)
      ++ pn ++ ml ++ checkFloatingBundledWires d, ts) := by
    unfold runERC
    rw [hpow, hser, hpn2, hml2, hts2]
    rfl
  refine ⟨?_, ?_, ?_, ?_, ?_, ?_⟩
  · rw [hpow]; rfl
  · rw [hser]; rfl
  · rw [hpn2]; rfl
  · rw [hml2]; rfl
  · rw [hts2]; rfl
  · rw [hrun]; rfl

/-- Witness for C3's amended statement: the fully annotated one-edge diagram
is string-safe, and the aggregate returns normally on it. -/
theorem rules_total_spec_witness :
    strSafe dGenW = true ∧ okE (runERC dGenW) = true :=
  ⟨by decide, (rules_total_spec dGenW (by decide)).2.2.2.2.2⟩

theorem someContains_ok_iff {ps : List DProp} {pat : String} {b : Bool}
    (h : someContains ps pat = .ok b) : b = true ↔ hasPropSub ps pat := by
  induction ps generalizing b with
  | nil =>
    rw [someContains] at h
    have hb : false = b := Except.ok.inj h
    rw [hb.symm]
    simp [hasPropSub]
  | cons p ps ih =>
    rw [someContains] at h
    obtain ⟨b1, hb1, h⟩ := bindE_ok h
    cases b1 with
    | true =>
      have hb : b = true := by
        have h2 : (pure true : Except Unit Bool) = .ok b := by simpa using h
        exact (Except.ok.inj h2).symm
      subst hb
      have hw : hasPropSub (p :: ps) pat := by
        cases hv : p.value with
        | str s =>
          rw [hv] at hb1
          have hsub : hasSubstr (jsUpper s) pat = true := Except.ok.inj hb1
          exact ⟨p, List.mem_cons_self p ps, s, hv, hsub⟩
        | num n =>
          rw [hv] at hb1
          exact absurd hb1 (by simp [valHasSub])
        | absent =>
          rw [hv] at hb1
          have hfalse : false = true := Except.ok.inj hb1
          cases hfalse
      simp [hw]
    | false =>
      have h2 : someContains ps pat = .ok b := by simpa using h
      have hhead : ∀ s : String, p.value = JVal.str s → hasSubstr (jsUpper s) pat = false := by
        intro s hv
        rw [hv] at hb1
        exact Except.ok.inj hb1
      rw [ih h2]
      constructor
      · rintro ⟨q, hq, s, hv, hsub⟩
        exact ⟨q, List.mem_cons_of_mem p hq, s, hv, hsub⟩
      · rintro ⟨q, hq, s, hv, hsub⟩
        rcases List.mem_cons.mp hq with hq | hq
        · subst hq
          rw [hhead s hv] at hsub
          cases hsub
        · exact ⟨q, hq, s, hv, hsub⟩

/-- Claim C9, amended: for every non-bundled edge on which the generator
returns normally, the per-edge list starts with the unconditional
continuity instruction, whose color label is the upper-cased insulation
string when that value is a nonempty string and the "unknown color"
placeholder when it is falsy; a mechanical instruction appears iff the
length value is truthy (present with a nonempty value); a power
instruction iff some display-property value contains PWR and some contains
GND (case-insensitive substrings); a signal instruction iff some value
contains TX or RX, and every signal instruction references TX whenever TX
was found, even if RX is also present. -/
theorem gen_conditions_spec (e : Edge) (l : List TestInstruction)
    (hb : e.type ≠ JVal.str "bundledEdge") (h : genBody e = .ok l) :
    ∃ color : String, colorOf e = .ok color ∧
      l.head? = some (contIns e color) ∧
      ((∃ t ∈ l, t.category = Cat.mechanical) ↔ truthy (edgePropVal e "length") = true) ∧
      ((∃ t ∈ l, t.category = Cat.power) ↔
        (hasPropSub (genProps e) "PWR" ∧ hasPropSub (genProps e) "GND")) ∧
      ((∃ t ∈ l, t.category = Cat.signal) ↔
        (hasPropSub (genProps e) "TX" ∨ hasPropSub (genProps e) "RX")) ∧
      (hasPropSub (genProps e) "TX" →
        ∀ t ∈ l, t.category = Cat.signal → ∃ a b2, t.instruction = a ++ "TX" ++ b2) ∧
      (truthy (edgePropVal e "insulation") = false → color = "unknown color") ∧
      (∀ s : String, edgePropVal e "insulation" = JVal.str s → s ≠ "" →
        color = jsUpper s) := by
  obtain ⟨color, hPWR, hGND, hTX, hRX, hc, h1, h2, h3, h4, hl⟩ := genBody_ok_shape e l hb h
  have iPWR := someContains_ok_iff h1
  have iGND := someContains_ok_iff h2
  have iTX := someContains_ok_iff h3
  have iRX := someContains_ok_iff h4
  refine ⟨color, hc, ?_, ?_, ?_, ?_, ?_, ?_, ?_⟩
  · rw [hl]
    rfl
  · constructor
    · rintro ⟨t, ht, hcat⟩
      rw [hl] at ht
      simp only [List.mem_append, List.mem_singleton] at ht
      rcases ht with ((ht | ht) | ht) | ht
      · rw [ht] at hcat
        exact absurd hcat (by simp [contIns])
      · by_cases hcond : truthy (edgePropVal e "length") = true
        · exact hcond
        · rw [if_neg hcond] at ht
          simp at ht
      · rw [mem_ite_singleton ht] at hcat
        exact absurd hcat (by simp [powIns])
      · rw [mem_ite_singleton ht] at hcat
        exact absurd hcat (by simp [sigIns])
    · intro hcond
      refine ⟨mechIns e, ?_, rfl⟩
      rw [hl]
      simp [hcond]
  · constructor
    · rintro ⟨t, ht, hcat⟩
      rw [hl] at ht
      simp only [List.mem_append, List.mem_singleton] at ht
      rcases ht with ((ht | ht) | ht) | ht
      · rw [ht] at hcat
        exact absurd hcat (by simp [contIns])
      · rw [mem_ite_singleton ht] at hcat
        exact absurd hcat (by simp [mechIns])
      · by_cases hcond : (hPWR && hGND) = true
        · exact ⟨iPWR.mp (andE hcond).1, iGND.mp (andE hcond).2⟩
        · rw [if_neg hcond] at ht
          simp at ht
      · rw [mem_ite_singleton ht] at hcat
        exact absurd hcat (by simp [sigIns])
    · rintro ⟨hp, hg⟩
      have hcond : (hPWR && hGND) = true := by
        simp [iPWR.mpr hp, iGND.mpr hg]
      refine ⟨powIns e, ?_, rfl⟩
      rw [hl]
      simp [hcond]
  · constructor
    · rintro ⟨t, ht, hcat⟩
      rw [hl] at ht
      simp only [List.mem_append, List.mem_singleton] at ht
      rcases ht with ((ht | ht) | ht) | ht
      · rw [ht] at hcat
        exact absurd hcat (by simp [contIns])
      · rw [mem_ite_singleton ht] at hcat
        exact absurd hcat (by simp [mechIns])
      · rw [mem_ite_singleton ht] at hcat
        exact absurd hcat (by simp [powIns])
      · by_cases hcond : (hTX || hRX) = true
        · rcases Bool.or_eq_true _ _ ▸ hcond with hx | hx
          · exact Or.inl (iTX.mp hx)
          · exact Or.inr (iRX.mp hx)
        · rw [if_neg hcond] at ht
          simp at ht
    · intro hs
      have hcond : (hTX || hRX) = true := by
        rcases hs with hs | hs
        · simp [iTX.mpr hs]
        · simp [iRX.mpr hs]
      refine ⟨sigIns e hTX, ?_, rfl⟩
      rw [hl]
      simp [hcond]
  · intro htx t ht hcat
    have hTXtrue : hTX = true := iTX.mpr htx
    subst hTXtrue
    rw [hl] at ht
    simp only [List.mem_append, List.mem_singleton] at ht
    rcases ht with ((ht | ht) | ht) | ht
    · rw [ht] at hcat
      exact absurd hcat (by simp [contIns])
    · rw [mem_ite_singleton ht] at hcat
      exact absurd hcat (by simp [mechIns])
    · rw [mem_ite_singleton ht] at hcat
      exact absurd hcat (by simp [powIns])
    · rw [mem_ite_singleton ht]
      exact ⟨"Use an oscilloscope to validate " ++ wireLabel e ++ " signal integrity (",
        " line).", rfl⟩
  · intro hins
    rw [colorOf, if_neg (by simp [hins])] at hc
    exact (Except.ok.inj hc).symm
  · intro s hs hne
    have hi : s.isEmpty = false := by
      rw [Bool.eq_false_iff]
      intro hct
      exact hne ((String.isEmpty_iff s).mp hct)
    have htr : truthy (edgePropVal e "insulation") = true := by
      rw [hs]
      simp [truthy, hi]
    rw [colorOf, if_pos htr, hs] at hc
    exact (Except.ok.inj hc).symm

/-- Witness for C9's amended statement: on the edge whose `length` value is
the empty string, the generator output is the single continuity
instruction and the stated conditions hold. -/
theorem gen_conditions_spec_witness :
    ∃ color : String, colorOf eGenCex = .ok color ∧
      [(⟨.str "E1", Cat.continuity,
        "Perform a continuity check along wire E1 (unknown color). Ensure resistance < 1 Ω."⟩
          : TestInstruction)].head? = some (contIns eGenCex color) ∧
      ((∃ t ∈ [(⟨.str "E1", Cat.continuity,
        "Perform a continuity check along wire E1 (unknown color). Ensure resistance < 1 Ω."⟩
          : TestInstruction)], t.category = Cat.mechanical) ↔
        truthy (edgePropVal eGenCex "length") = true) ∧
      ((∃ t ∈ [(⟨.str "E1", Cat.continuity,
        "Perform a continuity check along wire E1 (unknown color). Ensure resistance < 1 Ω."⟩
          : TestInstruction)], t.category = Cat.power) ↔
        (hasPropSub (genProps eGenCex) "PWR" ∧ hasPropSub (genProps eGenCex) "GND")) ∧
      ((∃ t ∈ [(⟨.str "E1", Cat.continuity,
        "Perform a continuity check along wire E1 (unknown color). Ensure resistance < 1 Ω."⟩
          : TestInstruction)], t.category = Cat.signal) ↔
        (hasPropSub (genProps eGenCex) "TX" ∨ hasPropSub (genProps eGenCex) "RX")) ∧
      (hasPropSub (genProps eGenCex) "TX" →
        ∀ t ∈ [(⟨.str "E1", Cat.continuity,
          "Perform a continuity check along wire E1 (unknown color). Ensure resistance < 1 Ω."⟩
            : TestInstruction)], t.category = Cat.signal →
          ∃ a b2, t.instruction = a ++ "TX" ++ b2) ∧
      (truthy (edgePropVal eGenCex "insulation") = false → color = "unknown color") ∧
      (∀ s : String, edgePropVal eGenCex "insulation" = JVal.str s → s ≠ "" →
        color = jsUpper s) :=
  gen_conditions_spec eGenCex
    [⟨.str "E1", Cat.continuity,
      "Perform a continuity check along wire E1 (unknown color). Ensure resistance < 1 Ω."⟩]
    (by decide) (by decide)

/-! ## Claim theorems: the grouping rules -/

/-- Claim C6: for every truthy reference name `rn`, the name map of the
Duplicate-Reference-Name rule holds exactly one entry for `rn` — precisely
the ids, in node order, of the non-bundle non-ghost nodes resolving to `rn`
— when at least one such node exists, and none otherwise; the rule's output
is exactly the per-entry findings, and an entry yields one error finding,
whose id field joins all member node ids, precisely when it holds two or
more ids. Names resolved by at most one node therefore produce no finding,
and a duplicated name produces exactly one. -/
theorem duplicates_rule_spec (d : Diagram) (rn : JVal) (h : truthy rn = true) :
    entriesFor (nameMap d) rn
        = (if (dupMembers d rn).isEmpty then [] else [dupMembers d rn]) ∧
    (mapKeys (nameMap d)).Nodup ∧
    checkDuplicates d = (nameMap d).filterMap mkDupFinding ∧
    ∀ ids, (rn, ids) ∈ nameMap d →
      ids = dupMembers d rn ∧
      mkDupFinding (rn, ids)
        = (if 1 < ids.length then
            some ⟨some (.str (String.intercalate ", " (ids.map jvalJoin))), Sev.error,
              "Duplicate reference name detected: \"" ++ jstr rn ++ "\" appears "
                ++ toString ids.length ++ " times."⟩
          else none) := by
  have hnodup : (mapKeys (nameMap d)).Nodup := nodup_groupKV dupContrib (nodesOf d)
  have hval : getVal (nameMap d) rn = combine none (keyVals dupContrib (nodesOf d) rn) :=
    getVal_groupKV h dupContrib (nodesOf d)
  rw [keyVals_dupContrib_eq] at hval
  have hent : entriesFor (nameMap d) rn = (getVal (nameMap d) rn).toList :=
    entriesFor_eq_getVal hnodup rn
  have hmain : entriesFor (nameMap d) rn
      = (if (dupMembers d rn).isEmpty then [] else [dupMembers d rn]) := by
    rw [hent, hval]
    cases hd : dupMembers d rn with
    | nil => simp [combine]
    | cons a t => simp [combine]
  refine ⟨hmain, hnodup, rfl, ?_⟩
  intro ids hmem
  have hidm : ids ∈ entriesFor (nameMap d) rn := mem_entriesFor hmem
  rw [hmain] at hidm
  have hids : ids = dupMembers d rn := by
    by_cases he : (dupMembers d rn).isEmpty = true
    · rw [if_pos he] at hidm
      cases hidm
    · rw [if_neg he] at hidm
      simpa using hidm
  exact ⟨hids, rfl⟩

/-- Witness for C6: on a diagram with two distinct nodes both named R, the
name map holds the single entry listing both node ids. -/
theorem duplicates_rule_spec_witness :
    truthy (JVal.str "R") = true ∧
    entriesFor (nameMap dDupW) (.str "R")
      = (if (dupMembers dDupW (.str "R")).isEmpty then []
        else [dupMembers dDupW (.str "R")]) :=
  ⟨by decide, (duplicates_rule_spec dDupW (.str "R") (by decide)).1⟩

/-- Claim C8: for every truthy pin id `p`, the pin-connection map of the
Multiple-Wires rule holds exactly one entry for `p` — precisely the edge
ids, in edge order and once per matching edge end, of the non-bundled,
non-ghost-touching edges carrying `p` as a handle — when at least one such
edge end exists, and none otherwise; the rule's output is exactly the
per-entry findings, and an entry yields one error finding, listing the
resolved names of all connected wires, precisely when the pin carries more
than one edge end. Every other pin id therefore produces no finding. -/
theorem multiwires_rule_spec (d : Diagram) (p : JVal) (h : truthy p = true) :
    entriesFor (pinConnMap d) p
        = (if (pinOcc d p).isEmpty then [] else [pinOcc d p]) ∧
    (mapKeys (pinConnMap d)).Nodup ∧
    checkMultipleWires d = (pinConnMap d).filterMap (mkMWFinding d) ∧
    ∀ ids, (p, ids) ∈ pinConnMap d →
      ids = pinOcc d p ∧
      mkMWFinding d (p, ids)
        = (if 1 < ids.length then
            some ⟨some (.str (String.intercalate ", " (ids.map jvalJoin))), Sev.error,
              "Pin " ++ jstr p ++ " has multiple wires connected: "
                ++ String.intercalate ", " (ids.map (fun i => jvalJoin (getEdgeName d i)))⟩
          else none) := by
  have hnodup : (mapKeys (pinConnMap d)).Nodup :=
    nodup_groupKV (mwContrib (ghostIds d)) (edgesOf d)
  have hval : getVal (pinConnMap d) p
      = combine none (keyVals (mwContrib (ghostIds d)) (edgesOf d) p) :=
    getVal_groupKV h (mwContrib (ghostIds d)) (edgesOf d)
  rw [keyVals_mwContrib_eq] at hval
  have hent : entriesFor (pinConnMap d) p = (getVal (pinConnMap d) p).toList :=
    entriesFor_eq_getVal hnodup p
  have hmain : entriesFor (pinConnMap d) p
      = (if (pinOcc d p).isEmpty then [] else [pinOcc d p]) := by
    rw [hent, hval]
    cases hd : pinOcc d p with
    | nil => simp [combine]
    | cons a t => simp [combine]
  refine ⟨hmain, hnodup, rfl, ?_⟩
  intro ids hmem
  have hidm : ids ∈ entriesFor (pinConnMap d) p := mem_entriesFor hmem
  rw [hmain] at hidm
  have hids : ids = pinOcc d p := by
    by_cases he : (pinOcc d p).isEmpty = true
    · rw [if_pos he] at hidm
      cases hidm
    · rw [if_neg he] at hidm
      simpa using hidm
  exact ⟨hids, rfl⟩

/-- Witness for C8: on a diagram whose two edges both carry pin P as source
handle, the pin-connection map holds the single entry listing both edges. -/
theorem multiwires_rule_spec_witness :
    truthy (JVal.str "P") = true ∧
    entriesFor (pinConnMap dMWW) (.str "P")
      = (if (pinOcc dMWW (.str "P")).isEmpty then []
        else [pinOcc dMWW (.str "P")]) :=
  ⟨by decide, (multiwires_rule_spec dMWW (.str "P") (by decide)).1⟩

end ERC
